import Mathlib

/-!
# ARMS chassis control and odometry: a shallow embedding

The C++ sources `src/ARMS/chassis.cpp` and `src/ARMS/odom.cpp` are embedded as
pure functions over explicit state.

* A `double` is an element of a linearly ordered field `α` (the real-number
  reading of the arithmetic; rounding, infinities and NaN are outside the
  model).  Every definition is computable, so it can be run over `ℚ`; the
  theorems that need trigonometry instantiate `α` with `ℝ`.
* The C math library (`M_PI`, `sin`, `cos`, `atan2`) is a parameter
  (`Libm`), since it lives outside the repository.
* An `int` is an `Int`; signed overflow (undefined behaviour in C++) is outside
  the model.
* A `std::shared_ptr` to a sensor is an `Option` holding the value the sensor
  currently reads; dereferencing a null pointer makes the operation return
  `none`.
* Globals of the namespaces `arms::chassis`, `arms::pid`, `arms::odom` are
  fields of the records `Chassis`, `Pid`, `Odom`; a function that writes
  globals returns the new record.
-/

namespace ARMS

/-- The part of the C math library the sources call. -/
structure Libm (α : Type) where
  /-- The constant `M_PI`. -/
  M_PI : α
  /-- The function `sin`. -/
  sin : α → α
  /-- The function `cos`. -/
  cos : α → α
  /-- The function `atan2 (y, x)`, first argument first. -/
  atan2 : α → α → α

/-- Modelled from the spec: the enumeration of control modes is declared in
`ARMS/pid.h`, which is not among the sources; the constructors carry the names
the sources use (`pid::mode == LINEAR`, ...), in the order the spec lists the
modes. -/
inductive Mode where
  | DISABLE
  | LINEAR
  | ANGULAR
  | ODOM
  | ODOM_HOLO
  | ODOM_HOLO_THRU
  | ODOM_THRU
  | ODOM_POSE
  deriving DecidableEq, Repr

/-- What the sensors and motor encoders currently read.  A sensor that was not
configured (`init` left its `shared_ptr` null) is `none`. -/
structure Hardware (α : Type) where
  /-- Reading `imu->get_rotation()`. -/
  imu : Option α
  /-- Reading `gyro->get_value()`. -/
  gyro : Option α
  /-- Reading `leftEncoder->get_value()`. -/
  leftEncoder : Option α
  /-- Reading `rightEncoder->get_value()`. -/
  rightEncoder : Option α
  /-- Reading `middleEncoder->get_value()`. -/
  middleEncoder : Option α
  /-- Reading `leftMotors->getPosition()`. -/
  leftMotors : α
  /-- Reading `rightMotors->getPosition()`. -/
  rightMotors : α
  /-- Reading `frontLeft->getPosition()`. -/
  frontLeft : α
  /-- Reading `frontRight->getPosition()`. -/
  frontRight : α
  /-- Reading `backLeft->getPosition()`. -/
  backLeft : α
  /-- Reading `backRight->getPosition()`. -/
  backRight : α
  /-- Value of `(double)motor->getGearing()`; `init` gives every motor and
  motor group the same gear set. -/
  gearing : α

/-- The motor objects of chassis.cpp lines 16-23. -/
inductive Motor where
  | leftMotors
  | rightMotors
  | frontLeft
  | frontRight
  | backLeft
  | backRight
  deriving DecidableEq, Repr

/-- A command sent to the actuators, with the `double` expression passed to it
(the driver converts it to an integer, which is not modelled). -/
inductive Command (α : Type) where
  | moveVelocity (motor : Motor) (v : α)
  | moveVoltage (motor : Motor) (v : α)
  deriving DecidableEq, Repr

/-- Globals of `namespace arms::chassis` (chassis.cpp lines 30-52) together with
the function-local statics of `settled` (lines 211-213). -/
structure Chassis (α : Type) where
  distance_constant : α
  degree_constant : α
  settle_count : Int
  settle_time : Int
  settle_threshold_linear : α
  settle_threshold_angular : α
  accel_step : α
  arc_step : α
  maxSpeed : α
  maxTurn : α
  maxAngular : α
  output_prev : Fin 4 → α
  useVelocity : Bool
  joystick_threshold : Int
  psv_left : α
  psv_right : α
  psv_middle : α

/-- Globals of `namespace arms::pid` that chassis.cpp and odom.cpp read and
write.  Their declarations are in `ARMS/pid.h`, outside the sources. -/
structure Pid (α : Type) where
  mode : Mode
  linearTarget : α
  angularTarget : α
  vectorAngle : α
  pointTarget : α × α
  difKP : α

/-- Globals of `namespace arms::odom` (odom.cpp lines 10-26). -/
structure Odom (α : Type) where
  debug : Bool
  left_right_distance : α
  middle_distance : α
  left_right_tpi : α
  middle_tpi : α
  exit_error : α
  holonomic : Bool
  global_x : α
  global_y : α
  heading : α
  heading_degrees : α
  prev_heading : α
  prev_left_pos : α
  prev_right_pos : α
  prev_middle_pos : α

/-- The whole program state: the hardware readings and the three namespaces. -/
structure State (α : Type) where
  hw : Hardware α
  chassis : Chassis α
  pid : Pid α
  odom : Odom α
  /-- The actuator commands emitted so far, oldest first. -/
  sink : List (Command α)

namespace chassis

variable {α : Type} [LinearOrderedField α]

/-- The function `limitSpeed` (chassis.cpp lines 169-177): two successive
tests, the second on the value the first one left. -/
def limitSpeed (speed max : α) : α :=
  let speed := if speed > max then max else speed
  let speed := if speed < -max then -max else speed
  speed

/-- The function `slew` (chassis.cpp lines 179-192).  The result is the pair
(returned value, value stored in `*current_speed`). -/
def slew (target_speed step current_speed : α) : α × α :=
  let step := if |current_speed| > |target_speed| then 200 else step
  let current_speed :=
    if target_speed > current_speed + step then current_speed + step
    else if target_speed < current_speed - step then current_speed - step
    else target_speed
  (current_speed, current_speed)

/-- The stored value after `k` successive calls `slew (target, step, &c)` on the
same memory cell, which holds `c` before the first call. -/
def slewCalls (target_speed step : α) (c : α) : Nat → α
  | 0 => c
  | k + 1 => (slew target_speed step (slewCalls target_speed step c k)).2

/-- The value returned by call number `k + 1` of that sequence. -/
def slewReturn (target_speed step : α) (c : α) (k : Nat) : α :=
  (slew target_speed step (slewCalls target_speed step c k)).1

/-- The function `motorMove` (chassis.cpp lines 58-72), for a motor or a motor
group: the command it sends. -/
def motorMove (hw : Hardware α) (motor : Motor) (speed : α) (vel : Bool) : Command α :=
  if vel then Command.moveVelocity motor (speed * hw.gearing / 100)
  else Command.moveVoltage motor (speed * 120)

/-- The function `reset` (chassis.cpp lines 87-114).  Taring a motor and
resetting an encoder make it read `0`.  With a left encoder but no right
encoder line 109 dereferences a null pointer. -/
def reset (s : State α) : Option (State α) :=
  let odom := { s.odom with prev_left_pos := 0, prev_right_pos := 0, prev_middle_pos := 0 }
  let chassis := { s.chassis with settle_count := 0 }
  let pid := { s.pid with vectorAngle := 0 }
  let sink := s.sink ++ [motorMove s.hw Motor.leftMotors 0 true,
    motorMove s.hw Motor.rightMotors 0 true]
  let hw := { s.hw with leftMotors := 0, rightMotors := 0, frontLeft := 0, frontRight := 0,
                        backLeft := 0, backRight := 0 }
  let hwOpt : Option (Hardware α) :=
    match hw.leftEncoder with
    | some _ =>
      match hw.rightEncoder with
      | some _ => some { hw with leftEncoder := some 0, rightEncoder := some 0 }
      | none => none
    | none => some hw
  match hwOpt with
  | none => none
  | some hw =>
    let hw := match hw.middleEncoder with
      | some _ => { hw with middleEncoder := some 0 }
      | none => hw
    some { hw := hw, chassis := chassis, pid := pid, odom := odom, sink := sink }

/-- The function `getEncoders` (chassis.cpp lines 116-128). -/
def getEncoders (hw : Hardware α) : Option (α × α) :=
  match hw.leftEncoder with
  | some l =>
    match hw.rightEncoder with
    | some r => some (l, r)
    | none => none
  | none => some (hw.leftMotors, hw.rightMotors)

/-- The function `position` (chassis.cpp lines 130-147). -/
def position (hw : Hardware α) (yDirection : Bool) : Option α :=
  if yDirection then
    let tb : α × α :=
      match hw.middleEncoder with
      | some v => (v, v)
      | none => (hw.frontLeft - hw.frontRight, hw.backRight - hw.backLeft)
    some ((tb.1 + tb.2) / 2)
  else
    match getEncoders hw with
    | some e => some ((e.1 + e.2) / 2)
    | none => none

/-- The function `angle` (chassis.cpp lines 149-157). -/
def angle (s : State α) : Option α :=
  match s.hw.imu with
  | some r => some r
  | none =>
    match s.hw.gyro with
    | some v => some (v / 10)
    | none =>
      match getEncoders s.hw with
      | some e => some ((e.1 - e.2) / 2 / s.chassis.degree_constant)
      | none => none

/-- The function `difference` (chassis.cpp lines 159-165). -/
def difference (s : State α) : Option α :=
  if s.hw.imu.isSome || s.hw.gyro.isSome then
    match angle s with
    | some a => some (a - s.pid.angularTarget)
    | none => none
  else
    match getEncoders s.hw with
    | some e => some (e.1 - e.2)
    | none => none

/-- The function `wheelMoving` (chassis.cpp lines 196-208): the pair
(returned flag, value stored in `*psv`). -/
def wheelMoving (c : Chassis α) (mode : Mode) (sv psv : α) : Int × α :=
  let thresh := if mode = Mode.ANGULAR then c.settle_threshold_angular
    else c.settle_threshold_linear
  let isMoving : Int := if |sv - psv| > thresh then 1 else 0
  (isMoving, sv)

/-- What one call of `settled` yields: the returned flag, the local
`wheelMovingCount` and the state it leaves. -/
structure SettledResult (α : Type) where
  ret : Bool
  wheelMovingCount : Int
  state : State α

/-- The function `settled` (chassis.cpp lines 210-237). -/
def settled (s : State α) : Option (SettledResult α) :=
  let c := s.chassis
  let lr : Option (α × α) :=
    match s.hw.leftEncoder with
    | some l =>
      match s.hw.rightEncoder with
      | some r => some (l, r)
      | none => none
    | none => some (s.hw.leftMotors, s.hw.rightMotors)
  match lr with
  | none => none
  | some (l, r) =>
    let wl := wheelMoving c s.pid.mode l c.psv_left
    let wr := wheelMoving c s.pid.mode r c.psv_right
    match position s.hw true with
    | none => none
    | some y =>
      let wm := wheelMoving c s.pid.mode y c.psv_middle
      let wheelMovingCount : Int := 0 + wl.1 + wr.1 + wm.1
      let settle_count : Int := if wheelMovingCount = 0 then c.settle_count + 1 else 0
      let c := { c with psv_left := wl.2, psv_right := wr.2, psv_middle := wm.2,
                        settle_count := settle_count }
      some { ret := decide (settle_count > c.settle_time),
             wheelMovingCount := wheelMovingCount,
             state := { s with chassis := c } }

/-- Successive calls of `settled`, the sensors reading `hws[i]` at call `i`:
the returned flags, the locals `wheelMovingCount`, and the final state. -/
def settledCalls : State α → List (Hardware α) → Option (List Bool × List Int × State α)
  | s, [] => some ([], [], s)
  | s, hw :: hws =>
    match settled { s with hw := hw } with
    | none => none
    | some r =>
      match settledCalls r.state hws with
      | none => none
      | some (rets, counts, s) => some (r.ret :: rets, r.wheelMovingCount :: counts, s)

/-- The three samples a call of `settled` passes to `wheelMoving` (chassis.cpp
lines 217-225): left, right and `position (true)`. -/
def settleSamples (hw : Hardware α) : Option (α × α × α) :=
  let lr : Option (α × α) :=
    match hw.leftEncoder with
    | some l =>
      match hw.rightEncoder with
      | some r => some (l, r)
      | none => none
    | none => some (hw.leftMotors, hw.rightMotors)
  match lr with
  | none => none
  | some (l, r) =>
    match position hw true with
    | none => none
    | some y => some (l, r, y)

/-- A stream of sensor readings in which each of the three samples of `settled`
differs by at most `t` from the sample before it, the samples before the first
reading being `p`. -/
def slowStream (t : α) : α × α × α → List (Hardware α) → Bool
  | _, [] => true
  | p, hw :: hws =>
    match settleSamples hw with
    | none => false
    | some q =>
      decide (|q.1 - p.1| ≤ t) && decide (|q.2.1 - p.2.1| ≤ t) &&
        decide (|q.2.2 - p.2.2| ≤ t) && slowStream t q hws

/-- The function `moveAsync` (chassis.cpp lines 246-253). -/
def moveAsync (sp : α) (max : Int) (s : State α) : Option (State α) :=
  let s := { s with pid := { s.pid with mode := Mode.LINEAR } }
  let sp := sp * s.chassis.distance_constant
  match reset s with
  | none => none
  | some s =>
    let s := { s with chassis := { s.chassis with maxSpeed := (max : α) } }
    match angle s with
    | none => none
    | some a =>
      let s := { s with pid := { s.pid with angularTarget := a } }
      some { s with pid := { s.pid with linearTarget := sp } }

/-- The function `turnAsync` (chassis.cpp lines 255-261). -/
def turnAsync (sp : α) (max : Int) (s : State α) : Option (State α) :=
  let s := { s with pid := { s.pid with mode := Mode.ANGULAR } }
  match reset s with
  | none => none
  | some s =>
    match angle s with
    | none => none
    | some a =>
      let sp := sp + a
      let s := { s with chassis := { s.chassis with maxSpeed := (max : α) } }
      some { s with pid := { s.pid with angularTarget := sp } }

/-- The C++ conversion `(int) x` of a `double`: truncation towards zero. -/
def truncToInt [FloorRing α] (x : α) : Int :=
  if 0 ≤ x then ⌊x⌋ else ⌈x⌉

/-- The relative set point `turnAbsoluteAsync` computes from the absolute one
and the current angle (chassis.cpp lines 266-273); the C++ `%` on `int` is the
remainder of the division truncated towards zero. -/
def relativeSetPoint [FloorRing α] (sp a : α) : α :=
  let sp := sp - ((Int.tmod (truncToInt a) 360 : Int) : α)
  if sp > 180 then sp - 360
  else if sp < -180 then sp + 360
  else sp

/-- The function `turnAbsoluteAsync` (chassis.cpp lines 263-276). -/
def turnAbsoluteAsync [FloorRing α] (sp : α) (max : Int) (s : State α) : Option (State α) :=
  let s := { s with pid := { s.pid with mode := Mode.ANGULAR } }
  match angle s with
  | none => none
  | some a => turnAsync (relativeSetPoint sp a) max s

/-- The function `holoAsync` (chassis.cpp lines 278-285). -/
def holoAsync (m : Libm α) (distance angle : α) (max : Int) (s : State α) :
    Option (State α) :=
  let distance := distance * s.chassis.distance_constant
  match reset s with
  | none => none
  | some s =>
    let s := { s with chassis := { s.chassis with maxSpeed := (max : α) } }
    let s := { s with pid := { s.pid with linearTarget := distance } }
    let s := { s with pid := { s.pid with vectorAngle := angle * m.M_PI / 180 } }
    some { s with pid := { s.pid with mode := Mode.LINEAR } }

/-- What the error calculators `pid::linear`, `pid::angular` and `pid::odom`
return (left speed, right speed) in a given state.  Their code is in `pid.cpp`,
outside the sources, so they are parameters of the control tick. -/
structure Calculators (α : Type) where
  linear : State α → α × α
  angular : State α → α × α
  odom : State α → α × α

/-- Locals of the holonomic branch of the control tick (chassis.cpp lines
375-408): the two scaled wheel-set vectors, the scaling reference and factor,
the turn term and the four outputs. -/
structure HoloLocals (α : Type) where
  frontVector : α
  backVector : α
  largestVector : α
  largestSpeed : α
  scalingFactor : α
  turnSpeed : α
  output : Fin 4 → α

/-- The holonomic branch of `chassisTask` (chassis.cpp lines 375-408), from the
limited speeds. -/
def holoOutput (m : Libm α) (mode : Mode) (vectorAngle maxSpeed maxTurn : α)
    (leftSpeed rightSpeed : α) : HoloLocals α :=
  let frontVector := m.sin (m.M_PI / 4 - vectorAngle)
  let backVector := m.sin (m.M_PI / 4 + vectorAngle)
  let largestVector := if |frontVector| > |backVector| then frontVector else backVector
  let largestSpeed := if |leftSpeed| > |rightSpeed| then leftSpeed else rightSpeed
  let scalingFactor :=
    if mode = Mode.ODOM_HOLO_THRU then |maxSpeed| / |largestVector|
    else |largestSpeed| / |largestVector|
  let frontVector := frontVector * scalingFactor
  let backVector := backVector * scalingFactor
  let turnSpeed := rightSpeed - leftSpeed
  let turnSpeed := limitSpeed turnSpeed maxTurn
  { frontVector := frontVector, backVector := backVector, largestVector := largestVector,
    largestSpeed := largestSpeed, scalingFactor := scalingFactor, turnSpeed := turnSpeed,
    output := ![frontVector - turnSpeed, backVector - turnSpeed,
                backVector + turnSpeed, frontVector + turnSpeed] }

/-- The speeds the control tick takes from the calculators (chassis.cpp lines
351-362); `none` is the `continue` of the modes the tick does not dispatch. -/
def tickSpeeds (pidc : Calculators α) (s : State α) : Option (α × α) :=
  if s.pid.mode = Mode.LINEAR then some (pidc.linear s)
  else if s.pid.mode = Mode.ANGULAR then some (pidc.angular s)
  else if s.pid.mode = Mode.ODOM ∨ s.pid.mode = Mode.ODOM_HOLO ∨
      s.pid.mode = Mode.ODOM_HOLO_THRU ∨ s.pid.mode = Mode.ODOM_THRU then some (pidc.odom s)
  else none

/-- The array `output` of the control tick before slewing (chassis.cpp lines
364-413), from the calculator speeds. -/
def tickOutput (m : Libm α) (s : State α) (speeds : α × α) : Fin 4 → α :=
  let leftSpeed := speeds.1
  let rightSpeed := speeds.2
  let leftSpeed := limitSpeed leftSpeed s.chassis.maxSpeed
  let rightSpeed := limitSpeed rightSpeed s.chassis.maxSpeed
  if s.pid.vectorAngle ≠ 0 then
    (holoOutput m s.pid.mode s.pid.vectorAngle s.chassis.maxSpeed s.chassis.maxTurn
      leftSpeed rightSpeed).output
  else
    ![leftSpeed, leftSpeed, rightSpeed, rightSpeed]

/-- One iteration of the loop of `chassisTask` (chassis.cpp lines 348-428),
after its `delay`: the state it leaves, commands appended to the sink. -/
def chassisTick (m : Libm α) (pidc : Calculators α) (s : State α) : State α :=
  match tickSpeeds pidc s with
  | none => s
  | some speeds =>
    let output := tickOutput m s speeds
    let slewed : Fin 4 → α × α :=
      fun i => slew (output i) s.chassis.accel_step (s.chassis.output_prev i)
    let output : Fin 4 → α := fun i => (slewed i).1
    let output_prev : Fin 4 → α := fun i => (slewed i).2
    let vel := s.chassis.useVelocity
    let cmds :=
      if s.pid.vectorAngle ≠ 0 then
        [motorMove s.hw Motor.frontLeft (output 0) vel,
         motorMove s.hw Motor.backLeft (output 1) vel,
         motorMove s.hw Motor.frontRight (output 2) vel,
         motorMove s.hw Motor.backRight (output 3) vel]
      else
        [motorMove s.hw Motor.leftMotors (output 0) vel,
         motorMove s.hw Motor.rightMotors (output 2) vel]
    { s with chassis := { s.chassis with output_prev := output_prev },
             sink := s.sink ++ cmds }

end chassis

namespace odom

variable {α : Type} [LinearOrderedField α]

/-- Locals of one iteration of the loop of `odomTask`.  A position the
iteration never assigned is `none`. -/
structure OdomLocals (α : Type) where
  left_pos : α
  right_pos : α
  middle_pos : Option α
  delta_left : α
  delta_right : α
  delta_middle : α
  delta_angle : α
  local_x : α
  local_y : α
  p : α

/-- The sensor reads of `odomTask` (odom.cpp lines 34-52): `left_pos`,
`right_pos`, and `middle_pos` when one of the branches assigns it. -/
def readPositions (hw : Hardware α) (holonomic : Bool) : Option (α × α × Option α) :=
  let lrm : Option (α × α × Option α) :=
    match hw.leftEncoder with
    | some l =>
      match hw.rightEncoder with
      | some r => some (l, r, none)
      | none => none
    | none =>
      if holonomic then some (hw.backLeft, hw.frontRight, some hw.backRight)
      else some (hw.leftMotors, hw.rightMotors, none)
  match lrm with
  | none => none
  | some (l, r, mid) =>
    match hw.middleEncoder with
    | some v => some (l, r, some v)
    | none => some (l, r, mid)

/-- One iteration of the loop of `odomTask` (odom.cpp lines 33-105).  The
argument `garbage` is the indeterminate content of the local `middle_pos` when
no branch assigns it. -/
def odomTick (m : Libm α) (garbage : α) (s : State α) : Option (OdomLocals α × State α) :=
  let o := s.odom
  match readPositions s.hw o.holonomic with
  | none => none
  | some (left_pos, right_pos, mid) =>
    let middle_pos := mid.getD garbage
    let delta_left := (left_pos - o.prev_left_pos) / o.left_right_tpi
    let delta_right := (right_pos - o.prev_right_pos) / o.left_right_tpi
    let delta_middle := (middle_pos - o.prev_middle_pos) / o.middle_tpi
    let hda : Option (α × α × α) :=
      if s.hw.imu.isSome then
        match chassis.angle s with
        | some a =>
          let heading_degrees := a
          let heading := heading_degrees * m.M_PI / 180
          some (heading, heading_degrees, heading - o.prev_heading)
        | none => none
      else
        let delta_angle := (delta_left - delta_right) / (o.left_right_distance * 2)
        let heading := o.heading + delta_angle
        some (heading, heading * 180 / m.M_PI, delta_angle)
    match hda with
    | none => none
    | some (heading, heading_degrees, delta_angle) =>
      let i := m.sin (delta_angle / 2) * 2
      let local_y :=
        if delta_angle ≠ 0 then (delta_right / delta_angle + o.left_right_distance) * i
        else delta_right
      let local_x :=
        if delta_angle ≠ 0 then (delta_middle / delta_angle + o.middle_distance) * i
        else delta_middle
      let p := heading - delta_angle / 2
      let p := if o.holonomic then p - m.M_PI / 4 else p
      let o := { o with
        heading := heading, heading_degrees := heading_degrees,
        prev_left_pos := left_pos, prev_right_pos := right_pos,
        prev_middle_pos := middle_pos, prev_heading := heading,
        global_y := o.global_y + (m.cos p * local_y - m.sin p * local_x),
        global_x := o.global_x + (m.sin p * local_y + m.cos p * local_x) }
      some ({ left_pos := left_pos, right_pos := right_pos, middle_pos := mid,
              delta_left := delta_left, delta_right := delta_right,
              delta_middle := delta_middle, delta_angle := delta_angle,
              local_x := local_x, local_y := local_y, p := p },
            { s with odom := o })

/-- Successive iterations of the loop of `odomTask`, the sensors reading
`ticks[i].1` (and the unassigned local holding `ticks[i].2`) at iteration `i`:
the locals of every iteration, oldest first, and the final state. -/
def odomTicks (m : Libm α) : State α → List (Hardware α × α) →
    Option (List (OdomLocals α) × State α)
  | s, [] => some ([], s)
  | s, (hw, garbage) :: ticks =>
    match odomTick m garbage { s with hw := hw } with
    | none => none
    | some (l, s) =>
      match odomTicks m s ticks with
      | none => none
      | some (ls, s) => some (l :: ls, s)

/-- The function `reset (point)` (odom.cpp lines 108-111). -/
def resetPoint (point : α × α) (s : State α) : State α :=
  { s with odom := { s.odom with global_y := point.1, global_x := point.2 } }

/-- The function `reset (point, angle)` (odom.cpp lines 113-118), with
`chassis::resetAngle` (chassis.cpp lines 81-85) inlined. -/
def reset (m : Libm α) (point : α × α) (angle : α) (s : State α) : State α :=
  let s := resetPoint (point.1, point.2) s
  let heading := angle * m.M_PI / 180
  let s := { s with odom := { s.odom with heading := heading } }
  let s := { s with odom := { s.odom with prev_heading := s.odom.heading } }
  match s.hw.imu with
  | some _ => { s with hw := { s.hw with imu := some angle } }
  | none => s

/-- The loop of `getAngleError` (odom.cpp lines 129-131), run for at most `fuel`
tests of its condition; `none` when the fuel does not suffice. -/
def normalizeLoop (m : Libm α) : Nat → α → Option α
  | 0, _ => none
  | fuel + 1, delta_theta =>
    if |delta_theta| > m.M_PI then
      normalizeLoop m fuel (delta_theta - 2 * m.M_PI * delta_theta / |delta_theta|)
    else some delta_theta

/-- The function `getAngleError` (odom.cpp lines 120-134); `point` is
`(point[0], point[1])`. -/
def getAngleError (m : Libm α) (fuel : Nat) (s : State α) (point : α × α) : Option α :=
  let y := point.1
  let x := point.2
  let y := y - s.odom.global_y
  let x := x - s.odom.global_x
  let delta_theta := s.odom.heading - m.atan2 x y
  normalizeLoop m fuel delta_theta

/-- The divisors `fabs (delta_theta)` of the divisions performed by the body of
the loop of `getAngleError` (odom.cpp line 130), in the order of the
iterations, for at most `fuel` tests of the loop condition. -/
def normalizeDivisors (m : Libm α) : Nat → α → List α
  | 0, _ => []
  | fuel + 1, delta_theta =>
    if |delta_theta| > m.M_PI then
      |delta_theta| ::
        normalizeDivisors m fuel (delta_theta - 2 * m.M_PI * delta_theta / |delta_theta|)
    else []

/-- The divisors of the divisions `getAngleError` (odom.cpp lines 120-134)
performs on the pose of `s` and the target `point`. -/
def getAngleErrorDivisors (m : Libm α) (fuel : Nat) (s : State α) (point : α × α) : List α :=
  let y := point.1
  let x := point.2
  let y := y - s.odom.global_y
  let x := x - s.odom.global_x
  let delta_theta := s.odom.heading - m.atan2 x y
  normalizeDivisors m fuel delta_theta

end odom

/-- The math library computes exactly over the reals: `M_PI` is `π`, `sin` and
`cos` are the real functions, and `atan2 (a, b)` is the argument in `(-π, π]` of
the point with abscissa `b` and ordinate `a` (`0` at the origin). -/
def Libm.IsReal (m : Libm ℝ) : Prop :=
  m.M_PI = Real.pi ∧ m.sin = Real.sin ∧ m.cos = Real.cos ∧
    ∀ a b : ℝ, m.atan2 a b = Complex.arg ⟨b, a⟩

section samples

variable {α : Type} [LinearOrderedField α]

/-- Sample sensor readings: no IMU, gyro or quadrature encoder; the motor
groups read `l` and `r`, the four corner motors `0`. -/
def sampleHardware (l r : α) : Hardware α :=
  { imu := none, gyro := none, leftEncoder := none, rightEncoder := none,
    middleEncoder := none, leftMotors := l, rightMotors := r,
    frontLeft := 0, frontRight := 0, backLeft := 0, backRight := 0, gearing := 200 }

/-- Sample state: the initial values of chassis.cpp lines 45-49 and odom.cpp
lines 23-26, zero-initialised globals, and a sample configuration
(`distance_constant = 100`, `settle_time = 2`, `accel_step = 20`, ...). -/
def sampleState : State α :=
  { hw := sampleHardware 0 0,
    chassis :=
      { distance_constant := 100, degree_constant := 1, settle_count := 0, settle_time := 2,
        settle_threshold_linear := 3, settle_threshold_angular := 1, accel_step := 20,
        arc_step := 2, maxSpeed := 100, maxTurn := 100, maxAngular := 50,
        output_prev := ![0, 0, 0, 0], useVelocity := false, joystick_threshold := 10,
        psv_left := 0, psv_right := 0, psv_middle := 0 },
    pid :=
      { mode := Mode.DISABLE, linearTarget := 0, angularTarget := 0, vectorAngle := 0,
        pointTarget := (0, 0), difKP := 0 },
    odom :=
      { debug := false, left_right_distance := 5, middle_distance := 3, left_right_tpi := 40,
        middle_tpi := 40, exit_error := 1, holonomic := false, global_x := 0, global_y := 0,
        heading := 0, heading_degrees := 0, prev_heading := 0, prev_left_pos := 0,
        prev_right_pos := 0, prev_middle_pos := 0 },
    sink := [] }

/-- Sample stream of `n` readings in which the left group advances by exactly
`t` at every reading, from `j * t`: it reads `(j + 1) * t`, `(j + 2) * t`, ...,
`(j + n) * t`; everything else reads `0`. -/
def rampStream (t : α) : Nat → Nat → List (Hardware α)
  | _, 0 => []
  | j, n + 1 => sampleHardware (((j + 1 : Nat) : α) * t) 0 :: rampStream t (j + 1) n

end samples

/-! ## Theorems -/

namespace chassis

variable {α : Type} [LinearOrderedField α]

theorem slew_fst_eq_snd (t s c : α) : (slew t s c).1 = (slew t s c).2 := rfl

/-- Braking never raises the magnitude: when `|c| > |t|` the new value is no
larger in magnitude than the old one. -/
theorem slew_brake_abs_le (t s c : α) (h : |c| > |t|) : |(slew t s c).2| ≤ |c| := by
  simp only [slew, if_pos h]
  split_ifs with h1 h2
  · rcases abs_cases c with ⟨hc, _⟩ | ⟨hc, _⟩ <;> rcases abs_cases t with ⟨ht, _⟩ | ⟨ht, _⟩ <;>
      rcases abs_cases (c + 200) with ⟨hn, _⟩ | ⟨hn, _⟩ <;> rw [hc, ht] at h <;> rw [hc, hn] <;>
      linarith
  · rcases abs_cases c with ⟨hc, _⟩ | ⟨hc, _⟩ <;> rcases abs_cases t with ⟨ht, _⟩ | ⟨ht, _⟩ <;>
      rcases abs_cases (c - 200) with ⟨hn, _⟩ | ⟨hn, _⟩ <;> rw [hc, ht] at h <;> rw [hc, hn] <;>
      linarith
  · exact le_of_lt h

/-- Accelerating moves the stored value by at most `step` towards the target. -/
theorem slew_accel_abs_le (t s c : α) (hs : 0 ≤ s) (h : ¬ |c| > |t|) :
    |(slew t s c).2| ≤ |c| + s := by
  simp only [slew, if_neg h]
  split_ifs with h1 h2
  · rcases abs_cases c with ⟨hc, _⟩ | ⟨hc, _⟩ <;>
      rcases abs_cases (c + s) with ⟨hn, _⟩ | ⟨hn, _⟩ <;> rw [hc, hn] <;> linarith
  · rcases abs_cases c with ⟨hc, _⟩ | ⟨hc, _⟩ <;>
      rcases abs_cases (c - s) with ⟨hn, _⟩ | ⟨hn, _⟩ <;> rw [hc, hn] <;> linarith
  · rcases abs_cases c with ⟨hc, _⟩ | ⟨hc, _⟩ <;>
      rcases abs_cases t with ⟨hn, _⟩ | ⟨hn, _⟩ <;> rw [hc, hn] <;> linarith

/-- C1. One call of `slew` raises the magnitude of the commanded value by at
most `accel_step`: for every previous value `c`, every target `t` and every
step `s ≥ 0`, `|c_new| - |c_old| ≤ s`, for the value stored as for the value
returned. -/
theorem slew_magnitude_increase_le (t s c : α) (hs : 0 ≤ s) :
    |(slew t s c).2| - |c| ≤ s ∧ |(slew t s c).1| - |c| ≤ s := by
  have key : |(slew t s c).2| - |c| ≤ s := by
    by_cases h : |c| > |t|
    · have := slew_brake_abs_le t s c h
      linarith
    · have := slew_accel_abs_le t s c hs h
      linarith
  exact ⟨key, key⟩

/-- C1, checked on the run `0 → 100` with `accel_step = 20`. -/
theorem slew_magnitude_increase_le_witness :
    (0 : ℚ) ≤ 20 ∧ |(slew (100 : ℚ) 20 0).2| - |(0 : ℚ)| ≤ 20 ∧
      |(slew (100 : ℚ) 20 0).1| - |(0 : ℚ)| ≤ 20 :=
  ⟨by norm_num, slew_magnitude_increase_le (100 : ℚ) 20 0 (by norm_num)⟩

/-- C2, as stated, fails: from `c = 300` towards `t = 0` the magnitude falls
(`|c| > |t|`), yet one call stores and returns `100`, not the target; likewise
from `c = 200` towards `t = -150` one call stores and returns `0`. -/
theorem slew_brake_not_immediate :
    |(300 : ℚ)| > |(0 : ℚ)| ∧ slew (0 : ℚ) 20 300 = (100, 100) ∧
      (slew (0 : ℚ) 20 300).2 ≠ 0 ∧
      |(200 : ℚ)| > |(-150 : ℚ)| ∧ slew (-150 : ℚ) 20 200 = (0, 0) ∧
      (slew (-150 : ℚ) 20 200).2 ≠ -150 := by
  have h1 : slew (0 : ℚ) 20 300 = (100, 100) := by norm_num [slew]
  have h2 : slew (-150 : ℚ) 20 200 = (0, 0) := by norm_num [slew, abs_of_pos]
  refine ⟨by norm_num, h1, ?_, by norm_num [abs_of_pos], h2, ?_⟩
  · rw [h1]; norm_num
  · rw [h2]; norm_num

/-- C2 (amended). When the magnitude falls (`|c| > |t|`), for any `accel_step`:
if the step to the target is at most the constant 200 the code substitutes for
`accel_step` (`|t - c| ≤ 200`), one call stores `t` and returns `t`; a larger
step is limited to 200 per call, the call storing and returning `c + 200` when
`t - c > 200` and `c - 200` when `t - c < -200`. -/
theorem slew_brake_limited_200 (t s c : α) (h : |c| > |t|) :
    (|t - c| ≤ 200 → slew t s c = (t, t)) ∧
      (t - c > 200 → slew t s c = (c + 200, c + 200)) ∧
      (t - c < -200 → slew t s c = (c - 200, c - 200)) := by
  simp only [slew, if_pos h]
  refine ⟨?_, ?_, ?_⟩
  · intro hd
    have hd2 := abs_le.mp hd
    rw [if_neg (by linarith [hd2.2]), if_neg (by linarith [hd2.1])]
  · intro hd
    rw [if_pos (by linarith)]
  · intro hd
    rw [if_neg (by linarith), if_pos (by linarith)]

/-- C2 (amended), checked on three braking steps: from `+100` to `0` (step
`100`) the target is reached in one call; from `-300` to `0` (step `300`) the
call gives `-100`; from `300` to `0` (step `-300`) the call gives `100`. -/
theorem slew_brake_limited_200_witness :
    (|(100 : ℚ)| > |(0 : ℚ)| ∧ |(0 : ℚ) - 100| ≤ 200 ∧ slew (0 : ℚ) 20 100 = (0, 0)) ∧
      (|(-300 : ℚ)| > |(0 : ℚ)| ∧ (0 : ℚ) - (-300) > 200 ∧
        slew (0 : ℚ) 20 (-300) = (-300 + 200, -300 + 200)) ∧
      (|(300 : ℚ)| > |(0 : ℚ)| ∧ (0 : ℚ) - 300 < -200 ∧
        slew (0 : ℚ) 20 300 = (300 - 200, 300 - 200)) :=
  ⟨⟨by norm_num, by norm_num,
      (slew_brake_limited_200 (0 : ℚ) 20 100 (by norm_num)).1 (by norm_num)⟩,
    ⟨by norm_num, by norm_num,
      (slew_brake_limited_200 (0 : ℚ) 20 (-300) (by norm_num)).2.1 (by norm_num)⟩,
    ⟨by norm_num, by norm_num,
      (slew_brake_limited_200 (0 : ℚ) 20 300 (by norm_num)).2.2 (by norm_num)⟩⟩

/-- The stored value of the ramp from `0` towards a constant target `T > 0`
with step `s > 0`, after `k` calls. -/
theorem slewCalls_ramp (T s : α) (hT : 0 < T) (hs : 0 < s) (k : ℕ) :
    slewCalls T s 0 k = min ((k : α) * s) T := by
  induction k with
  | zero => simp [slewCalls, le_of_lt hT]
  | succ k ih =>
    have hk : (0 : α) ≤ (k : α) * s := mul_nonneg (Nat.cast_nonneg k) hs.le
    have hc0 : (0 : α) ≤ min ((k : α) * s) T := le_min hk hT.le
    have hcT : min ((k : α) * s) T ≤ T := min_le_right _ _
    have hnb : ¬ |min ((k : α) * s) T| > |T| := by
      rw [abs_of_nonneg hc0, abs_of_pos hT]; exact not_lt.mpr hcT
    have hsucc : ((k + 1 : ℕ) : α) * s = (k : α) * s + s := by push_cast; ring
    simp only [slewCalls, ih, slew, if_neg hnb, hsucc]
    rcases le_total ((k : α) * s) T with h | h
    · rw [min_eq_left h]
      split_ifs with h1 h2
      · exact (min_eq_left h1.le).symm
      · linarith
      · exact (min_eq_right (not_lt.mp h1)).symm
    · rw [min_eq_right h]
      rw [if_neg (by linarith), if_neg (by linarith)]
      exact (min_eq_right (by linarith)).symm

/-- C3. Ramp of the slew filter from a stored `0` towards a constant target
`T > 0` with a constant step `s > 0`: call number `k + 1` returns
`min ((k + 1) * s) T`, which is also the value it stores, and it returns `T`
exactly when `k + 1 ≥ ⌈T / s⌉`; so `T` is first returned on call `⌈T / s⌉` and
on every call after it. -/
theorem slew_ramp [FloorRing α] (T s : α) (hT : 0 < T) (hs : 0 < s) (k : ℕ) :
    slewReturn T s 0 k = min (((k + 1 : ℕ) : α) * s) T ∧
      slewCalls T s 0 (k + 1) = slewReturn T s 0 k ∧
      (slewReturn T s 0 k = T ↔ ⌈T / s⌉₊ ≤ k + 1) := by
  have h1 : slewReturn T s 0 k = min (((k + 1 : ℕ) : α) * s) T :=
    slewCalls_ramp T s hT hs (k + 1)
  refine ⟨h1, rfl, ?_⟩
  rw [h1, min_eq_right_iff, Nat.ceil_le, div_le_iff₀ hs]

/-- C3, checked on the spec's example: with `T = 100` and `s = 20` the fifth
call returns `100` and the fourth returns `80`; `⌈100 / 20⌉ = 5`; from a stored
`100` the target `0` is reached on the first call. -/
theorem slew_ramp_witness :
    (slewReturn (100 : ℚ) 20 0 4 = min (((4 + 1 : ℕ) : ℚ) * 20) 100 ∧
      slewCalls (100 : ℚ) 20 0 (4 + 1) = slewReturn (100 : ℚ) 20 0 4 ∧
      (slewReturn (100 : ℚ) 20 0 4 = 100 ↔ ⌈(100 : ℚ) / 20⌉₊ ≤ 4 + 1)) ∧
      ⌈(100 : ℚ) / 20⌉₊ = 5 ∧ slewReturn (100 : ℚ) 20 0 4 = 100 ∧
      slewReturn (100 : ℚ) 20 0 3 = 80 ∧ slewReturn (0 : ℚ) 20 100 0 = 0 := by
  refine ⟨slew_ramp (100 : ℚ) 20 (by norm_num) (by norm_num) 4, ?_, ?_, ?_, ?_⟩
  · norm_num
  · norm_num [slewReturn, slewCalls, slew]
  · norm_num [slewReturn, slewCalls, slew]
  · norm_num [slewReturn, slewCalls, slew]

/-- What a call of `settled` that returns does to the counter: the threshold
`settle_time` is kept, the counter is incremented when no channel was flagged
and zeroed otherwise, and the flag returned compares the new counter with
`settle_time`. -/
theorem settled_spec (s : State α) (r : SettledResult α) (h : settled s = some r) :
    r.state.chassis.settle_time = s.chassis.settle_time ∧
      r.state.chassis.settle_count =
        (if r.wheelMovingCount = 0 then s.chassis.settle_count + 1 else 0) ∧
      r.ret = decide (r.state.chassis.settle_count > s.chassis.settle_time) := by
  unfold settled at h
  simp only [position, if_true] at h
  split at h
  · exact absurd h (by simp)
  · injection h with h
    subst h
    exact ⟨rfl, rfl, rfl⟩

/-- A call of `settled` returns whenever a present left encoder comes with a
right encoder. -/
theorem settled_isSome (s : State α)
    (h : s.hw.leftEncoder.isSome → s.hw.rightEncoder.isSome) : (settled s).isSome := by
  unfold settled
  simp only [position, if_true]
  cases hl : s.hw.leftEncoder with
  | none => simp
  | some l =>
    cases hr : s.hw.rightEncoder with
    | none => simp [hl, hr] at h
    | some r => simp

/-- A run of calls of `settled` returns whenever, at every call, a present left
encoder comes with a right encoder. -/
theorem settledCalls_isSome (hws : List (Hardware α)) (s : State α)
    (h : ∀ hw ∈ hws, hw.leftEncoder.isSome → hw.rightEncoder.isSome) :
    (settledCalls s hws).isSome := by
  induction hws generalizing s with
  | nil => simp [settledCalls]
  | cons hw hws ih =>
    have h1 := settled_isSome { s with hw := hw } (h hw (List.mem_cons_self _ _))
    obtain ⟨r, hr⟩ := Option.isSome_iff_exists.mp h1
    have h2 := ih r.state (fun x hx => h x (List.mem_cons_of_mem _ hx))
    obtain ⟨q, hq⟩ := Option.isSome_iff_exists.mp h2
    simp [settledCalls, hr, hq]

/-- A run of calls of `settled` in none of which a channel is flagged: call
number `k + 1` of the run returns whether the counter it started from, plus
`k + 1`, exceeds `settle_time`. -/
theorem settledCalls_quiet (hws : List (Hardware α)) (s : State α) (rets : List Bool)
    (counts : List Int) (s' : State α) (hrun : settledCalls s hws = some (rets, counts, s'))
    (hquiet : ∀ c ∈ counts, c = 0) :
    rets.length = hws.length ∧
      ∀ k, k < hws.length →
        rets[k]? = some (decide (s.chassis.settle_time < s.chassis.settle_count + (k : Int) + 1)) := by
  induction hws generalizing s rets counts s' with
  | nil =>
    simp only [settledCalls, Option.some.injEq, Prod.mk.injEq] at hrun
    obtain ⟨rfl, -, -⟩ := hrun
    simp
  | cons hw hws ih =>
    simp only [settledCalls] at hrun
    split at hrun
    · exact absurd hrun (by simp)
    · rename_i r hr
      split at hrun
      · exact absurd hrun (by simp)
      · rename_i rets1 counts1 s1 hrest
        simp only [Option.some.injEq, Prod.mk.injEq] at hrun
        obtain ⟨rfl, rfl, rfl⟩ := hrun
        obtain ⟨ht, hc, hret⟩ := settled_spec _ r hr
        have hz : r.wheelMovingCount = 0 := hquiet _ (List.mem_cons_self _ _)
        rw [if_pos hz] at hc
        obtain ⟨hlen, hk⟩ := ih r.state rets1 counts1 _ hrest
          (fun c hc => hquiet c (List.mem_cons_of_mem _ hc))
        refine ⟨by simp [hlen], ?_⟩
        intro k hklt
        cases k with
        | zero =>
          simp only [List.getElem?_cons_zero, Option.some.injEq, hret, hc]
          simp
        | succ k =>
          have := hk k (by simpa using hklt)
          rw [List.getElem?_cons_succ, this, ht, hc]
          simp only [Option.some.injEq, decide_eq_decide]
          push_cast
          constructor <;> intro h <;> linarith

/-- With a cap `max ≥ 0`, `limitSpeed` is the clamp to `[-max, max]`. -/
theorem limitSpeed_eq_clamp (speed max : α) (h : 0 ≤ max) :
    limitSpeed speed max = Max.max (-max) (Min.min speed max) ∧
      -max ≤ limitSpeed speed max ∧ limitSpeed speed max ≤ max := by
  simp only [limitSpeed]
  by_cases h1 : speed > max
  · have h2 : ¬ max < -max := by linarith
    rw [if_pos h1, if_neg h2, min_eq_right h1.le, max_eq_right (by linarith)]
    exact ⟨rfl, by linarith, le_rfl⟩
  · rw [if_neg h1, min_eq_left (not_lt.mp h1)]
    by_cases h3 : speed < -max
    · rw [if_pos h3, max_eq_left h3.le]
      exact ⟨rfl, le_rfl, by linarith⟩
    · rw [if_neg h3, max_eq_right (not_lt.mp h3)]
      exact ⟨rfl, not_lt.mp h3, not_lt.mp h1⟩

/-- C9. With `vectorAngle = 0`, in every mode the control tick dispatches (all
but `DISABLE` and `ODOM_POSE`), the tick takes the speeds of the calculator of
the mode and its four outputs before slewing are exactly `(L, L, R, R)`, `L`
and `R` the left and right speed passed through `limitSpeed` with `maxSpeed`,
which for `maxSpeed ≥ 0` is the clamp to `[-maxSpeed, maxSpeed]`; each channel
is then slewed from its own `output_prev`.  No strafe or turn term enters. -/
theorem tickOutput_differential (m : Libm α) (pidc : Calculators α) (s : State α)
    (hmode : s.pid.mode ≠ Mode.DISABLE ∧ s.pid.mode ≠ Mode.ODOM_POSE)
    (hva : s.pid.vectorAngle = 0) :
    ∃ speeds : α × α,
      tickSpeeds pidc s = some speeds ∧
      (speeds = pidc.linear s ∨ speeds = pidc.angular s ∨ speeds = pidc.odom s) ∧
      tickOutput m s speeds =
        ![limitSpeed speeds.1 s.chassis.maxSpeed, limitSpeed speeds.1 s.chassis.maxSpeed,
          limitSpeed speeds.2 s.chassis.maxSpeed, limitSpeed speeds.2 s.chassis.maxSpeed] ∧
      (0 ≤ s.chassis.maxSpeed →
        limitSpeed speeds.1 s.chassis.maxSpeed =
            Max.max (-s.chassis.maxSpeed) (Min.min speeds.1 s.chassis.maxSpeed) ∧
          limitSpeed speeds.2 s.chassis.maxSpeed =
            Max.max (-s.chassis.maxSpeed) (Min.min speeds.2 s.chassis.maxSpeed)) ∧
      (chassisTick m pidc s).chassis.output_prev = fun i =>
        (slew (![limitSpeed speeds.1 s.chassis.maxSpeed, limitSpeed speeds.1 s.chassis.maxSpeed,
            limitSpeed speeds.2 s.chassis.maxSpeed, limitSpeed speeds.2 s.chassis.maxSpeed] i)
          s.chassis.accel_step (s.chassis.output_prev i)).2 := by
  have hsp : ∃ speeds : α × α, tickSpeeds pidc s = some speeds ∧
      (speeds = pidc.linear s ∨ speeds = pidc.angular s ∨ speeds = pidc.odom s) := by
    unfold tickSpeeds
    obtain ⟨h1, h2⟩ := hmode
    cases hm : s.pid.mode <;> simp_all
  obtain ⟨speeds, hs, hor⟩ := hsp
  have hout : tickOutput m s speeds =
      ![limitSpeed speeds.1 s.chassis.maxSpeed, limitSpeed speeds.1 s.chassis.maxSpeed,
        limitSpeed speeds.2 s.chassis.maxSpeed, limitSpeed speeds.2 s.chassis.maxSpeed] := by
    simp [tickOutput, hva]
  refine ⟨speeds, hs, hor, hout, ?_, ?_⟩
  · intro h0
    exact ⟨(limitSpeed_eq_clamp _ _ h0).1, (limitSpeed_eq_clamp _ _ h0).1⟩
  · simp only [chassisTick, hs, hout]

/-- C9, checked over the reals in mode `LINEAR` with `maxSpeed = 100` and a
calculator that returns `(150, -30)`: the outputs before slewing are
`(100, 100, -30, -30)`. -/
theorem tickOutput_differential_witness :
    (Mode.LINEAR ≠ Mode.DISABLE ∧ Mode.LINEAR ≠ Mode.ODOM_POSE) ∧
      tickSpeeds ⟨fun _ => (150, -30), fun _ => (0, 0), fun _ => (0, 0)⟩
        { (sampleState : State ℝ) with
          pid := { (sampleState : State ℝ).pid with mode := Mode.LINEAR } } =
        some (150, -30) ∧
      tickOutput ⟨Real.pi, Real.sin, Real.cos, fun a b => Complex.arg ⟨b, a⟩⟩
        { (sampleState : State ℝ) with
          pid := { (sampleState : State ℝ).pid with mode := Mode.LINEAR } } (150, -30) =
        ![100, 100, -30, -30] := by
  obtain ⟨speeds, hs, -, hout, -, -⟩ :=
    tickOutput_differential
      (⟨Real.pi, Real.sin, Real.cos, fun a b => Complex.arg ⟨b, a⟩⟩ : Libm ℝ)
      ⟨fun _ => (150, -30), fun _ => (0, 0), fun _ => (0, 0)⟩
      { (sampleState : State ℝ) with
        pid := { (sampleState : State ℝ).pid with mode := Mode.LINEAR } }
      ⟨by decide, by decide⟩ rfl
  have hsp : tickSpeeds ⟨fun _ => (150, -30), fun _ => (0, 0), fun _ => (0, 0)⟩
      { (sampleState : State ℝ) with
        pid := { (sampleState : State ℝ).pid with mode := Mode.LINEAR } } =
      some (150, -30) := by
    simp [tickSpeeds]
  rw [hsp] at hs
  obtain rfl : ((150 : ℝ), (-30 : ℝ)) = speeds := Option.some.inj hs
  refine ⟨⟨by decide, by decide⟩, hsp, ?_⟩
  rw [hout]
  norm_num [limitSpeed, sampleState]

/-- What `reset` leaves, when it completes: the settle counter and the vector
angle are `0`, the IMU and gyro readings are untouched, a present encoder
reads `0`, the motor groups read `0`, the mode and the constants are kept. -/
theorem reset_spec (s : State α) (h : s.hw.leftEncoder.isSome → s.hw.rightEncoder.isSome) :
    ∃ s', reset s = some s' ∧ s'.chassis.settle_count = 0 ∧ s'.pid.vectorAngle = 0 ∧
      s'.pid.mode = s.pid.mode ∧ s'.hw.imu = s.hw.imu ∧ s'.hw.gyro = s.hw.gyro ∧
      getEncoders s'.hw = some (0, 0) ∧
      s'.chassis.degree_constant = s.chassis.degree_constant ∧
      s'.chassis.distance_constant = s.chassis.distance_constant := by
  unfold reset
  cases hl : s.hw.leftEncoder with
  | none => cases hmid : s.hw.middleEncoder <;> simp [getEncoders, hl, hmid]
  | some lv =>
    cases hr : s.hw.rightEncoder with
    | none => simp [hl, hr] at h
    | some rv => cases hmid : s.hw.middleEncoder <;> simp [getEncoders, hl, hr, hmid]

/-- C10, as stated, fails for the encoder-differential heading: with no IMU
and no gyro, motor groups reading `10` and `0` and `degree_constant = 1`,
`angle ()` reports `5` when `moveAsync (24, 50)` is called, yet the call leaves
`angularTarget = 0` (and `linearTarget = 2400`). -/
theorem moveAsync_encoder_heading_lost :
    angle { (sampleState : State ℚ) with hw := sampleHardware 10 0 } = some 5 ∧
      ∃ s' : State ℚ,
        moveAsync (24 : ℚ) 50 { (sampleState : State ℚ) with hw := sampleHardware 10 0 } =
          some s' ∧
        s'.pid.angularTarget = 0 ∧ s'.pid.angularTarget ≠ 5 ∧ s'.pid.linearTarget = 2400 := by
  refine ⟨by norm_num [angle, getEncoders, sampleState, sampleHardware], _, rfl, ?_, ?_, ?_⟩ <;>
    norm_num [sampleState, sampleHardware]

/-- C10 (amended). For every `sp` and `max` and every sensor configuration in
which a present left encoder comes with a right one, `moveAsync (sp, max)`
completes and leaves mode `LINEAR`, `linearTarget = sp * distance_constant`,
`maxSpeed = max`, `vectorAngle = 0`, `settle_count = 0`, and `angularTarget`
equal to what `angle ()` reports after `reset ()`: with an IMU or a gyro that
is the heading `angle ()` reported when `moveAsync` was called; with the
encoder-differential heading it is `(0 - 0) / 2 / degree_constant = 0`, as
`reset ()` has zeroed the encoders the heading is computed from. -/
theorem moveAsync_spec (sp : α) (max : Int) (s : State α)
    (h : s.hw.leftEncoder.isSome → s.hw.rightEncoder.isSome) :
    ∃ s', moveAsync sp max s = some s' ∧ s'.pid.mode = Mode.LINEAR ∧
      s'.pid.linearTarget = sp * s.chassis.distance_constant ∧
      s'.chassis.maxSpeed = (max : α) ∧ s'.pid.vectorAngle = 0 ∧
      s'.chassis.settle_count = 0 ∧
      (s.hw.imu.isSome ∨ s.hw.gyro.isSome → some s'.pid.angularTarget = angle s) ∧
      (s.hw.imu = none → s.hw.gyro = none →
        s'.pid.angularTarget = (0 - 0) / 2 / s.chassis.degree_constant ∧
        s'.pid.angularTarget = 0) := by
  obtain ⟨s1, hreset, hsc, hva, hmode, himu, hgyro, henc, hdc, hdist⟩ :=
    reset_spec { s with pid := { s.pid with mode := Mode.LINEAR } } h
  simp only at hmode himu hgyro hdc hdist
  unfold moveAsync
  simp only [hreset]
  cases hi : s.hw.imu with
  | some a =>
    have ha : angle { s1 with chassis := { s1.chassis with maxSpeed := (max : α) } } = some a := by
      simp [angle, himu, hi]
    simp only [ha]
    refine ⟨_, rfl, hmode, rfl, rfl, hva, hsc, ?_, ?_⟩
    · intro _; simp [angle, hi]
    · intro hn; exact absurd hn (by simp)
  | none =>
    cases hg : s.hw.gyro with
    | some v =>
      have ha : angle { s1 with chassis := { s1.chassis with maxSpeed := (max : α) } } =
          some (v / 10) := by
        simp [angle, himu, hgyro, hi, hg]
      simp only [ha]
      refine ⟨_, rfl, hmode, rfl, rfl, hva, hsc, ?_, ?_⟩
      · intro _; simp [angle, hi, hg]
      · intro _ hn; exact absurd hn (by simp)
    | none =>
      have ha : angle { s1 with chassis := { s1.chassis with maxSpeed := (max : α) } } =
          some 0 := by
        simp [angle, himu, hgyro, hi, hg, henc]
      simp only [ha]
      refine ⟨_, rfl, hmode, rfl, rfl, hva, hsc, ?_, ?_⟩
      · intro hor; simp at hor
      · intro _ _; exact ⟨by simp, rfl⟩

/-- C10 (amended), checked on the spec's scenario: `moveAsync (24, 50)` with
`distance_constant = 100` and an IMU reading `30` gives `linearTarget = 2400`,
`maxSpeed = 50` and `angularTarget = 30`. -/
theorem moveAsync_spec_witness :
    ((sampleHardware (10 : ℚ) 0).leftEncoder.isSome →
        (sampleHardware (10 : ℚ) 0).rightEncoder.isSome) ∧
      ∃ s' : State ℚ, moveAsync (24 : ℚ) 50 { (sampleState : State ℚ) with
          hw := { sampleHardware 10 0 with imu := some 30 } } = some s' ∧
        s'.pid.mode = Mode.LINEAR ∧ s'.pid.linearTarget = 2400 ∧ s'.chassis.maxSpeed = 50 ∧
        s'.pid.vectorAngle = 0 ∧ s'.chassis.settle_count = 0 ∧ s'.pid.angularTarget = 30 := by
  refine ⟨by simp [sampleHardware], ?_⟩
  obtain ⟨s', hs, h1, h2, h3, h4, h5, h6, -⟩ :=
    moveAsync_spec (24 : ℚ) 50 { (sampleState : State ℚ) with
      hw := { sampleHardware 10 0 with imu := some 30 } } (by simp [sampleHardware])
  refine ⟨s', hs, h1, ?_, ?_, h4, h5, ?_⟩
  · rw [h2]; norm_num [sampleState]
  · rw [h3]; norm_num
  · have := h6 (Or.inl (by simp))
    simp only [angle] at this
    exact Option.some.inj this

end chassis

namespace odom

variable {α : Type} [LinearOrderedField α]

/-- One pass through the body of the loop of `getAngleError`: when
`|δ| > M_PI > 0` the body subtracts `2 * M_PI` from a positive `δ` and adds it
to a negative one. -/
theorem normalize_body (m : Libm α) (hpi : 0 < m.M_PI) (d : α) (h : |d| > m.M_PI) :
    (0 < d ∧ d - 2 * m.M_PI * d / |d| = d - 2 * m.M_PI) ∨
      (d < 0 ∧ d - 2 * m.M_PI * d / |d| = d + 2 * m.M_PI) := by
  have hd : 0 < |d| := lt_trans hpi h
  rcases lt_or_gt_of_ne (abs_pos.mp hd) with hneg | hpos
  · right
    refine ⟨hneg, ?_⟩
    rw [abs_of_neg hneg, div_neg, mul_div_assoc, div_self hneg.ne, mul_one]
    ring
  · left
    refine ⟨hpos, ?_⟩
    rw [abs_of_pos hpos, mul_div_assoc, div_self hpos.ne', mul_one]

/-- The loop of `getAngleError` terminates within `n + 1` tests of its condition
when `|δ| ≤ M_PI + 2 * M_PI * n`; its result `r` has `|r| ≤ M_PI` and differs
from `δ` by an integer multiple of `2 * M_PI`. -/
theorem normalizeLoop_spec (m : Libm α) (hpi : 0 < m.M_PI) (n : ℕ) (d : α)
    (h : |d| ≤ m.M_PI + 2 * m.M_PI * n) :
    ∃ (r : α) (j : ℤ), (∀ fuel, n + 1 ≤ fuel → normalizeLoop m fuel d = some r) ∧
      |r| ≤ m.M_PI ∧ r = d - j * (2 * m.M_PI) := by
  induction n generalizing d with
  | zero =>
    refine ⟨d, 0, ?_, by simpa using h, by simp⟩
    intro fuel hf
    obtain ⟨f, rfl⟩ : ∃ f, fuel = f + 1 := ⟨fuel - 1, by omega⟩
    have hle : ¬ |d| > m.M_PI := not_lt.mpr (by simpa using h)
    simp [normalizeLoop, hle]
  | succ n ih =>
    by_cases hgt : |d| > m.M_PI
    · have hstep : abs (d - 2 * m.M_PI * d / abs d) ≤ m.M_PI + 2 * m.M_PI * n := by
        have hn : (0 : α) ≤ 2 * m.M_PI * n :=
          mul_nonneg (by linarith) (Nat.cast_nonneg n)
        push_cast at h
        rcases normalize_body m hpi d hgt with ⟨hpos, he⟩ | ⟨hneg, he⟩
        · rw [he, abs_le]
          rw [abs_of_pos hpos] at h hgt
          constructor <;> linarith
        · rw [he, abs_le]
          rw [abs_of_neg hneg] at h hgt
          constructor <;> linarith
      obtain ⟨r, j, hr, hb, hj⟩ := ih _ hstep
      have hj' : ∃ j' : ℤ, r = d - j' * (2 * m.M_PI) := by
        rcases normalize_body m hpi d hgt with ⟨_, he⟩ | ⟨_, he⟩
        · refine ⟨j + 1, ?_⟩
          rw [hj, he]; push_cast; ring
        · refine ⟨j - 1, ?_⟩
          rw [hj, he]; push_cast; ring
      obtain ⟨j', hj'⟩ := hj'
      refine ⟨r, j', ?_, hb, hj'⟩
      intro fuel hf
      obtain ⟨f, rfl⟩ : ∃ f, fuel = f + 1 := ⟨fuel - 1, by omega⟩
      simp only [normalizeLoop, if_pos hgt]
      exact hr f (by omega)
    · refine ⟨d, 0, ?_, not_lt.mp hgt, by simp⟩
      intro fuel hf
      obtain ⟨f, rfl⟩ : ∃ f, fuel = f + 1 := ⟨fuel - 1, by omega⟩
      simp [normalizeLoop, hgt]

/-- The loop of `getAngleError` terminates on every input (of an Archimedean
field, with `M_PI > 0`). -/
theorem normalizeLoop_terminates [Archimedean α] (m : Libm α) (hpi : 0 < m.M_PI) (d : α) :
    ∃ (N : ℕ) (r : α) (j : ℤ), (∀ fuel, N ≤ fuel → normalizeLoop m fuel d = some r) ∧
      |r| ≤ m.M_PI ∧ r = d - j * (2 * m.M_PI) := by
  obtain ⟨n, hn⟩ := exists_nat_ge (|d| / (2 * m.M_PI))
  have h2 : (0 : α) < 2 * m.M_PI := by linarith
  have hb : |d| ≤ m.M_PI + 2 * m.M_PI * n := by
    rw [div_le_iff₀ h2] at hn
    linarith
  obtain ⟨r, j, hr, hrest⟩ := normalizeLoop_spec m hpi n d hb
  exact ⟨n + 1, r, j, hr, hrest⟩

/-- C5, as stated, fails: from the pose `(0, 0)` with heading `0`, the target
`(y, x) = (-1, 0)` lies straight behind, `atan2 (0, -1) = π`, and
`getAngleError` returns exactly `-π`, which is outside `(-π, π]`. -/
theorem getAngleError_eq_neg_pi :
    getAngleError ⟨Real.pi, Real.sin, Real.cos, fun a b => Complex.arg ⟨b, a⟩⟩ 1
        (sampleState : State ℝ) (-1, 0) = some (-Real.pi) ∧
      (∀ fuel, getAngleError ⟨Real.pi, Real.sin, Real.cos, fun a b => Complex.arg ⟨b, a⟩⟩
        (fuel + 1) (sampleState : State ℝ) (-1, 0) = some (-Real.pi)) ∧
      -Real.pi ∉ Set.Ioc (-Real.pi) Real.pi := by
  have harg : Complex.arg ⟨-1, 0⟩ = Real.pi := by
    have h : (⟨-1, 0⟩ : ℂ) = -1 := by
      apply Complex.ext <;> simp
    rw [h, Complex.arg_neg_one]
  have key : ∀ fuel,
      getAngleError ⟨Real.pi, Real.sin, Real.cos, fun a b => Complex.arg ⟨b, a⟩⟩
        (fuel + 1) (sampleState : State ℝ) (-1, 0) = some (-Real.pi) := by
    intro fuel
    simp only [getAngleError, sampleState, normalizeLoop, sub_zero, zero_sub, neg_zero, harg,
      abs_neg, abs_of_pos Real.pi_pos, gt_iff_lt, lt_self_iff_false, if_false]
  exact ⟨key 0, key, by simp⟩

/-- C5 (amended). In exact arithmetic (an Archimedean ordered field such as the
reals, with `M_PI > 0`), for every pose and every target point `getAngleError`
terminates (every fuel from some `N` on gives the same result) and its result
lies in the closed interval `[-M_PI, M_PI]`, whatever `atan2` returns; and
whenever `heading - atan2 (x, y)` is exactly `-M_PI` the loop is skipped and the
result is `-M_PI`. -/
theorem getAngleError_mem_Icc [Archimedean α] (m : Libm α) (hpi : 0 < m.M_PI)
    (s : State α) (point : α × α) :
    (∃ (N : ℕ) (r : α), (∀ fuel, N ≤ fuel → getAngleError m fuel s point = some r) ∧
        -m.M_PI ≤ r ∧ r ≤ m.M_PI) ∧
      (s.odom.heading - m.atan2 (point.2 - s.odom.global_x) (point.1 - s.odom.global_y) =
          -m.M_PI →
        ∀ fuel, getAngleError m (fuel + 1) s point = some (-m.M_PI)) := by
  constructor
  · obtain ⟨N, r, _, hr, hb, _⟩ :=
      normalizeLoop_terminates m hpi
        (s.odom.heading - m.atan2 (point.2 - s.odom.global_x) (point.1 - s.odom.global_y))
    exact ⟨N, r, fun fuel hf => hr fuel hf, (abs_le.mp hb).1, (abs_le.mp hb).2⟩
  · intro hd fuel
    have hn : ¬ |(-m.M_PI)| > m.M_PI := by
      rw [abs_neg, abs_of_pos hpi]
      exact lt_irrefl _
    simp only [getAngleError, hd, normalizeLoop, if_neg hn]

/-- C5 (amended), checked over the reals on the pose `(0, 0)` with heading `0`
and the target `(y, x) = (-1, 0)` straight behind it: the difference
`heading - atan2 (x, y)` is exactly `-π`, the function terminates with a result
in `[-π, π]`, and that result is `-π` for every positive fuel. -/
theorem getAngleError_mem_Icc_witness :
    0 < Real.pi ∧
      (sampleState : State ℝ).odom.heading -
          Complex.arg ⟨-1 - (sampleState : State ℝ).odom.global_y,
            0 - (sampleState : State ℝ).odom.global_x⟩ = -Real.pi ∧
      (∃ (N : ℕ) (r : ℝ),
        (∀ fuel, N ≤ fuel →
          getAngleError ⟨Real.pi, Real.sin, Real.cos, fun a b => Complex.arg ⟨b, a⟩⟩ fuel
            (sampleState : State ℝ) (-1, 0) = some r) ∧
        -Real.pi ≤ r ∧ r ≤ Real.pi) ∧
      ∀ fuel,
        getAngleError ⟨Real.pi, Real.sin, Real.cos, fun a b => Complex.arg ⟨b, a⟩⟩ (fuel + 1)
          (sampleState : State ℝ) (-1, 0) = some (-Real.pi) := by
  have harg : (sampleState : State ℝ).odom.heading -
      Complex.arg ⟨-1 - (sampleState : State ℝ).odom.global_y,
        0 - (sampleState : State ℝ).odom.global_x⟩ = -Real.pi := by
    have h1 : (⟨-1 - (sampleState : State ℝ).odom.global_y,
        0 - (sampleState : State ℝ).odom.global_x⟩ : ℂ) = -1 := by
      apply Complex.ext <;> simp [sampleState]
    rw [h1, Complex.arg_neg_one]
    simp [sampleState]
  have h := getAngleError_mem_Icc
    ⟨Real.pi, Real.sin, Real.cos, fun a b => Complex.arg ⟨b, a⟩⟩ Real.pi_pos
    (sampleState : State ℝ) (-1, 0)
  exact ⟨Real.pi_pos, harg, h.1, h.2 harg⟩

/-- C6. Over the reals, `getAngleError` applied to a target the pose is aimed
at returns exactly `0`: for every pose, whatever its heading, and every `d > 0`,
the target `(y, x) = (global_y + d * cos heading, global_x + d * sin heading)`
makes the loop terminate with result `0`. -/
theorem getAngleError_own_target (m : Libm ℝ) (hm : m.IsReal) (s : State ℝ) (d : ℝ)
    (hd : 0 < d) :
    ∃ N : ℕ, ∀ fuel, N ≤ fuel →
      getAngleError m fuel s
        (s.odom.global_y + d * m.cos s.odom.heading,
          s.odom.global_x + d * m.sin s.odom.heading) = some 0 := by
  obtain ⟨hpi, hsin, hcos, hatan⟩ := hm
  have hpos : 0 < m.M_PI := hpi ▸ Real.pi_pos
  have harg : m.atan2 (d * Real.sin s.odom.heading) (d * Real.cos s.odom.heading) =
      s.odom.heading + 2 * Real.pi * ⌊(Real.pi - s.odom.heading) / (2 * Real.pi)⌋ := by
    have h := Complex.arg_mul_cos_add_sin_mul_I_sub hd s.odom.heading
    have hc : (⟨d * Real.cos s.odom.heading, d * Real.sin s.odom.heading⟩ : ℂ) =
        (d : ℂ) * (Complex.cos s.odom.heading + Complex.sin s.odom.heading * Complex.I) := by
      apply Complex.ext
      · simp [← Complex.ofReal_cos, ← Complex.ofReal_sin]
      · simp [← Complex.ofReal_cos, ← Complex.ofReal_sin]
    rw [hatan, hc]
    linarith
  obtain ⟨N, r, j, hr, hb, hj⟩ := normalizeLoop_terminates m hpos
    (s.odom.heading - m.atan2 (d * Real.sin s.odom.heading) (d * Real.cos s.odom.heading))
  have hr0 : r = 0 := by
    rw [harg, hpi] at hj
    rw [hpi] at hb
    have hz : r = ((-⌊(Real.pi - s.odom.heading) / (2 * Real.pi)⌋ - j : ℤ) : ℝ) *
        (2 * Real.pi) := by
      rw [hj]; push_cast; ring
    generalize (-⌊(Real.pi - s.odom.heading) / (2 * Real.pi)⌋ - j : ℤ) = z at hz
    by_cases hz0 : z = 0
    · rw [hz, hz0]; simp
    · exfalso
      have h1 : (1 : ℝ) ≤ |(z : ℝ)| := by
        rw [← Int.cast_abs]
        exact_mod_cast Int.one_le_abs hz0
      have h2 : |r| = |(z : ℝ)| * (2 * Real.pi) := by
        rw [hz, abs_mul, abs_of_pos (by linarith [Real.pi_pos] : (0 : ℝ) < 2 * Real.pi)]
      have := Real.pi_pos
      nlinarith
  refine ⟨N, fun fuel hf => ?_⟩
  have := hr fuel hf
  simp only [getAngleError, hsin, hcos, add_sub_cancel_left]
  rw [this, hr0]

/-- C6, checked on a pose with heading `7` radians (more than a full turn) and
`d = 2`. -/
theorem getAngleError_own_target_witness :
    (0 : ℝ) < 2 ∧
      ∃ N : ℕ, ∀ fuel, N ≤ fuel →
        getAngleError ⟨Real.pi, Real.sin, Real.cos, fun a b => Complex.arg ⟨b, a⟩⟩ fuel
          { (sampleState : State ℝ) with
            odom := { (sampleState : State ℝ).odom with heading := 7 } }
          ((sampleState : State ℝ).odom.global_y + 2 * Real.cos 7,
            (sampleState : State ℝ).odom.global_x + 2 * Real.sin 7) = some 0 :=
  ⟨by norm_num,
    getAngleError_own_target ⟨Real.pi, Real.sin, Real.cos, fun a b => Complex.arg ⟨b, a⟩⟩
      ⟨rfl, rfl, rfl, fun _ _ => rfl⟩
      { (sampleState : State ℝ) with
        odom := { (sampleState : State ℝ).odom with heading := 7 } } 2 (by norm_num)⟩

/-- What an iteration of `odomTask` that completes computes, in terms of its
locals: the deltas, the heading update of the branch taken, the local
displacement, the rotation angle and the new pose. -/
theorem odomTick_spec (m : Libm α) (g : α) (s : State α) (l : OdomLocals α) (s' : State α)
    (h : odomTick m g s = some (l, s')) :
    (l.delta_left = (l.left_pos - s.odom.prev_left_pos) / s.odom.left_right_tpi ∧
      l.delta_right = (l.right_pos - s.odom.prev_right_pos) / s.odom.left_right_tpi ∧
      l.delta_middle = (l.middle_pos.getD g - s.odom.prev_middle_pos) / s.odom.middle_tpi) ∧
    (s.hw.imu = none →
      l.delta_angle = (l.delta_left - l.delta_right) / (s.odom.left_right_distance * 2) ∧
      s'.odom.heading = s.odom.heading + l.delta_angle ∧
      s'.odom.heading_degrees = s'.odom.heading * 180 / m.M_PI) ∧
    (∀ a, s.hw.imu = some a →
      s'.odom.heading_degrees = a ∧ s'.odom.heading = a * m.M_PI / 180 ∧
      l.delta_angle = s'.odom.heading - s.odom.prev_heading) ∧
    (l.local_y = (if l.delta_angle ≠ 0 then
        (l.delta_right / l.delta_angle + s.odom.left_right_distance) *
          (m.sin (l.delta_angle / 2) * 2)
      else l.delta_right) ∧
      l.local_x = (if l.delta_angle ≠ 0 then
        (l.delta_middle / l.delta_angle + s.odom.middle_distance) *
          (m.sin (l.delta_angle / 2) * 2)
      else l.delta_middle) ∧
      l.p = (if s.odom.holonomic then s'.odom.heading - l.delta_angle / 2 - m.M_PI / 4
        else s'.odom.heading - l.delta_angle / 2)) ∧
    (s'.odom.global_y = s.odom.global_y + (m.cos l.p * l.local_y - m.sin l.p * l.local_x) ∧
      s'.odom.global_x = s.odom.global_x + (m.sin l.p * l.local_y + m.cos l.p * l.local_x)) ∧
    (s'.odom.prev_left_pos = l.left_pos ∧ s'.odom.prev_right_pos = l.right_pos ∧
      s'.odom.prev_middle_pos = l.middle_pos.getD g ∧
      s'.odom.prev_heading = s'.odom.heading) ∧
    (s'.odom.left_right_distance = s.odom.left_right_distance ∧
      s'.odom.middle_distance = s.odom.middle_distance ∧
      s'.odom.left_right_tpi = s.odom.left_right_tpi ∧
      s'.odom.middle_tpi = s.odom.middle_tpi ∧
      s'.odom.holonomic = s.odom.holonomic) ∧
    (s'.hw = s.hw ∧ s'.chassis = s.chassis ∧ s'.pid = s.pid ∧ s'.sink = s.sink) := by
  unfold odomTick at h
  simp only at h
  split at h
  · exact absurd h (by simp)
  · rename_i lp rp mid hread
    cases himu : s.hw.imu with
    | none =>
      simp only [himu, Option.isSome_none, Bool.false_eq_true, if_false, Option.some.injEq,
        Prod.mk.injEq] at h
      obtain ⟨rfl, rfl⟩ := h
      simp
    | some a =>
      simp only [himu, Option.isSome_some, if_true, chassis.angle, Option.some.injEq,
        Prod.mk.injEq] at h
      obtain ⟨rfl, rfl⟩ := h
      simp

/-- An iteration of `odomTask` completes whenever a present left encoder comes
with a right encoder. -/
theorem odomTick_isSome (m : Libm α) (g : α) (s : State α)
    (h : s.hw.leftEncoder.isSome → s.hw.rightEncoder.isSome) : (odomTick m g s).isSome := by
  have hread : ∃ q, readPositions s.hw s.odom.holonomic = some q := by
    unfold readPositions
    cases hl : s.hw.leftEncoder with
    | none => cases hmid : s.hw.middleEncoder <;> by_cases hh : s.odom.holonomic = true <;>
        simp [hh]
    | some lv =>
      cases hr : s.hw.rightEncoder with
      | none => simp [hl, hr] at h
      | some rv => cases hmid : s.hw.middleEncoder <;> simp
  obtain ⟨⟨lp, rp, mid⟩, hq⟩ := hread
  unfold odomTick
  simp only [hq]
  cases himu : s.hw.imu <;> simp [chassis.angle, himu]

/-- C7. Straight-segment integration.  In a non-holonomic configuration, an
odometry tick with heading delta `0` whose deltas are
`delta_left = delta_right = D` and `delta_middle = 0` changes
`(global_x, global_y)` by exactly `(D * sin h, D * cos h)`, `h` the current
heading, and leaves the heading unchanged (with an IMU the heading is the one
stored by the previous tick or reset, `prev_heading = heading`); the
displacement has squared length `D ^ 2` as soon as
`sin h ^ 2 + cos h ^ 2 = 1`.  Of the two side deltas only `delta_right` enters
the straight branch, so `delta_left = D` is not needed as a hypothesis. -/
theorem odomTick_straight (m : Libm α) (g : α) (s : State α) (D : α) (l : OdomLocals α)
    (s' : State α) (hrun : odomTick m g s = some (l, s'))
    (hholo : s.odom.holonomic = false)
    (hr : l.delta_right = D) (hm : l.delta_middle = 0) (h0 : l.delta_angle = 0)
    (himu : s.hw.imu.isSome → s.odom.prev_heading = s.odom.heading) :
    s'.odom.heading = s.odom.heading ∧
      s'.odom.global_x = s.odom.global_x + D * m.sin s.odom.heading ∧
      s'.odom.global_y = s.odom.global_y + D * m.cos s.odom.heading ∧
      (m.sin s.odom.heading ^ 2 + m.cos s.odom.heading ^ 2 = 1 →
        (s'.odom.global_x - s.odom.global_x) ^ 2 + (s'.odom.global_y - s.odom.global_y) ^ 2 =
          D ^ 2) := by
  obtain ⟨-, hdead, hsens, ⟨hy, hx, hp⟩, ⟨hgy, hgx⟩, -, -, -⟩ := odomTick_spec m g s l s' hrun
  have hh : s'.odom.heading = s.odom.heading := by
    cases hi : s.hw.imu with
    | none =>
      obtain ⟨-, h2, -⟩ := hdead hi
      rw [h2, h0, add_zero]
    | some a =>
      obtain ⟨-, -, h3⟩ := hsens a hi
      have hinv := himu (by simp [hi])
      rw [h0] at h3
      rw [← hinv]
      linarith
  have hy' : l.local_y = D := by rw [hy, h0]; simpa using hr
  have hx' : l.local_x = 0 := by rw [hx, h0]; simpa using hm
  have hp' : l.p = s.odom.heading := by rw [hp, hholo, h0, hh]; simp
  have ex : s'.odom.global_x = s.odom.global_x + D * m.sin s.odom.heading := by
    rw [hgx, hy', hx', hp']; ring
  have ey : s'.odom.global_y = s.odom.global_y + D * m.cos s.odom.heading := by
    rw [hgy, hy', hx', hp']; ring
  refine ⟨hh, ex, ey, ?_⟩
  intro hsc
  rw [ex, ey]
  have : (s.odom.global_x + D * m.sin s.odom.heading - s.odom.global_x) ^ 2 +
      (s.odom.global_y + D * m.cos s.odom.heading - s.odom.global_y) ^ 2 =
      D ^ 2 * (m.sin s.odom.heading ^ 2 + m.cos s.odom.heading ^ 2) := by ring
  rw [this, hsc, mul_one]

/-- C7, checked over the reals: heading `0`, both motor groups advance by `80`
ticks at `40` ticks per unit, so `D = 2` and the heading delta is `0`; the
pose moves from `(0, 0)` to `(global_x, global_y) = (0, 2)`. -/
theorem odomTick_straight_witness :
    ∃ (l : OdomLocals ℝ) (s' : State ℝ),
      odomTick ⟨Real.pi, Real.sin, Real.cos, fun a b => Complex.arg ⟨b, a⟩⟩ 0
        { (sampleState : State ℝ) with hw := sampleHardware 80 80 } = some (l, s') ∧
      l.delta_left = 2 ∧ l.delta_right = 2 ∧ l.delta_middle = 0 ∧ l.delta_angle = 0 ∧
      s'.odom.heading = 0 ∧ s'.odom.global_x = 0 ∧ s'.odom.global_y = 2 := by
  refine ⟨_, _, rfl, ?_, ?_, ?_, ?_, ?_⟩
  · norm_num [sampleState, sampleHardware]
  · norm_num [sampleState, sampleHardware]
  · norm_num [sampleState, sampleHardware]
  · norm_num [sampleState, sampleHardware]
  · have h := odomTick_straight ⟨Real.pi, Real.sin, Real.cos, fun a b => Complex.arg ⟨b, a⟩⟩ 0
      { (sampleState : State ℝ) with hw := sampleHardware 80 80 } 2 _ _ rfl rfl
      (by norm_num [sampleState, sampleHardware]) (by norm_num [sampleState, sampleHardware])
      (by norm_num [sampleState, sampleHardware]) (by simp [sampleHardware])
    refine ⟨h.1, ?_, ?_⟩
    · rw [h.2.1]; simp [sampleState]
    · rw [h.2.2.1]; simp [sampleState]

/-- Dead-reckoned runs: the heading advances by the sum of the per-tick
left-minus-right deltas over twice `left_right_distance`, and the per-tick
deltas of each side telescope to the change of the stored position. -/
theorem odomTicks_sums (m : Libm α) (ticks : List (Hardware α × α)) (s : State α)
    (ls : List (OdomLocals α)) (s' : State α) (hrun : odomTicks m s ticks = some (ls, s'))
    (hno : ∀ t ∈ ticks, t.1.imu = none) :
    s'.odom.heading = s.odom.heading +
        ((ls.map fun l => l.delta_left).sum - (ls.map fun l => l.delta_right).sum) /
          (s.odom.left_right_distance * 2) ∧
      (ls.map fun l => l.delta_left).sum =
        (s'.odom.prev_left_pos - s.odom.prev_left_pos) / s.odom.left_right_tpi ∧
      (ls.map fun l => l.delta_right).sum =
        (s'.odom.prev_right_pos - s.odom.prev_right_pos) / s.odom.left_right_tpi ∧
      ls.length = ticks.length := by
  induction ticks generalizing s ls with
  | nil =>
    simp only [odomTicks, Option.some.injEq, Prod.mk.injEq] at hrun
    obtain ⟨rfl, rfl⟩ := hrun
    simp
  | cons t ticks ih =>
    obtain ⟨hw, g⟩ := t
    simp only [odomTicks] at hrun
    split at hrun
    · exact absurd hrun (by simp)
    · rename_i l s1 h1
      split at hrun
      · exact absurd hrun (by simp)
      · rename_i ls1 s2 h2
        simp only [Option.some.injEq, Prod.mk.injEq] at hrun
        obtain ⟨rfl, rfl⟩ := hrun
        obtain ⟨⟨hdl, hdr, -⟩, hdead, -, -, -, ⟨hpl, hpr, -, -⟩, ⟨hlrd, -, htpi, -, -⟩, -⟩ :=
          odomTick_spec m g _ l s1 h1
        obtain ⟨hda, hhead, -⟩ := hdead (hno (hw, g) (List.mem_cons_self _ _))
        obtain ⟨ihh, ihl, ihr, ihn⟩ := ih s1 ls1 h2
          (fun t ht => hno t (List.mem_cons_of_mem _ ht))
        simp only at hdl hdr hda hhead hlrd htpi
        refine ⟨?_, ?_, ?_, by simp [ihn]⟩
        · rw [ihh, hhead, hda, hlrd]
          simp only [List.map_cons, List.sum_cons]
          ring
        · simp only [List.map_cons, List.sum_cons]
          rw [ihl, hdl, hpl, htpi]
          ring
        · simp only [List.map_cons, List.sum_cons]
          rw [ihr, hdr, hpr, htpi]
          ring

/-- C8. Heading is path-independent when dead-reckoned (no IMU): over every
sequence of odometry ticks the accumulated change of heading is
(total left displacement - total right displacement) /
(2 * left_right_distance); the two totals depend only on the first and last
encoder positions, not on the split into ticks; hence, with
`left_right_distance ≠ 0`, a total left-minus-right displacement of
`± 4 * M_PI * left_right_distance` brings the heading to its start value
`± 2 * M_PI`. -/
theorem odomTicks_heading (m : Libm α) (s : State α) (ticks : List (Hardware α × α))
    (ls : List (OdomLocals α)) (s' : State α) (hrun : odomTicks m s ticks = some (ls, s'))
    (hno : ∀ t ∈ ticks, t.1.imu = none) :
    s'.odom.heading - s.odom.heading =
        ((ls.map fun l => l.delta_left).sum - (ls.map fun l => l.delta_right).sum) /
          (2 * s.odom.left_right_distance) ∧
      ((ls.map fun l => l.delta_left).sum =
          (s'.odom.prev_left_pos - s.odom.prev_left_pos) / s.odom.left_right_tpi ∧
        (ls.map fun l => l.delta_right).sum =
          (s'.odom.prev_right_pos - s.odom.prev_right_pos) / s.odom.left_right_tpi) ∧
      (s.odom.left_right_distance ≠ 0 →
        (ls.map fun l => l.delta_left).sum - (ls.map fun l => l.delta_right).sum =
          4 * m.M_PI * s.odom.left_right_distance →
        s'.odom.heading = s.odom.heading + 2 * m.M_PI) ∧
      (s.odom.left_right_distance ≠ 0 →
        (ls.map fun l => l.delta_left).sum - (ls.map fun l => l.delta_right).sum =
          -(4 * m.M_PI * s.odom.left_right_distance) →
        s'.odom.heading = s.odom.heading - 2 * m.M_PI) := by
  obtain ⟨hh, hl, hr, -⟩ := odomTicks_sums m ticks s ls s' hrun hno
  refine ⟨?_, ⟨hl, hr⟩, ?_, ?_⟩
  · rw [hh, mul_comm 2]; ring
  · intro hne hsum
    rw [hh, hsum]
    field_simp
    ring
  · intro hne hsum
    rw [hh, hsum]
    field_simp
    ring

/-- C8, checked over the reals: with `left_right_distance = 5` and 40 ticks per
unit, the left group advances to `300 π` and then to `800 π` encoder ticks
while the right group stays at `0`; the total left-minus-right displacement is
`20 π = 4 π * 5` and the heading goes from `0` to `2 π`. -/
theorem odomTicks_heading_witness :
    ∃ (ls : List (OdomLocals ℝ)) (s' : State ℝ),
      odomTicks ⟨Real.pi, Real.sin, Real.cos, fun a b => Complex.arg ⟨b, a⟩⟩
        (sampleState : State ℝ)
        [(sampleHardware (300 * Real.pi) 0, 0), (sampleHardware (800 * Real.pi) 0, 0)] =
          some (ls, s') ∧
      (ls.map fun l => l.delta_left).sum - (ls.map fun l => l.delta_right).sum =
        4 * Real.pi * 5 ∧
      s'.odom.heading = 0 + 2 * Real.pi := by
  have hsum : (300 * Real.pi - 0) / 40 + ((800 * Real.pi - 300 * Real.pi) / 40 + 0) -
      ((0 - 0) / 40 + ((0 - 0) / 40 + 0)) = 4 * Real.pi * (5 : ℝ) := by ring
  refine ⟨_, _, rfl, hsum, ?_⟩
  exact (odomTicks_heading ⟨Real.pi, Real.sin, Real.cos, fun a b => Complex.arg ⟨b, a⟩⟩
    (sampleState : State ℝ)
    [(sampleHardware (300 * Real.pi) 0, 0), (sampleHardware (800 * Real.pi) 0, 0)] _ _ rfl
    (by simp [sampleHardware])).2.2.1 (by norm_num [sampleState]) hsum

end odom

namespace chassis

variable {α : Type} [LinearOrderedField α]

/-- C11, as stated, fails: `reset` called with slew memory
`output_prev = (50, 50, -50, -50)` and `settle_count = 7` zeroes the counter and
leaves the four slew values as they were. -/
theorem reset_slew_memory_not_zeroed :
    ∃ s' : State ℚ,
      reset { (sampleState : State ℚ) with
        chassis := { (sampleState : State ℚ).chassis with
          settle_count := 7, output_prev := ![50, 50, -50, -50] } } = some s' ∧
      s'.chassis.settle_count = 0 ∧ s'.chassis.output_prev = ![50, 50, -50, -50] ∧
      s'.chassis.output_prev 0 ≠ 0 := by
  refine ⟨_, rfl, rfl, rfl, ?_⟩
  norm_num [sampleState]

/-- C11 (amended). For every prior state in which a present left encoder comes
with a right one, `reset` completes, leaves `settle_count = 0`, and leaves the
slew memory `output_prev[0..3]` with the values it had before the call. -/
theorem reset_settle_count_output_prev (s : State α)
    (h : s.hw.leftEncoder.isSome → s.hw.rightEncoder.isSome) :
    ∃ s', reset s = some s' ∧ s'.chassis.settle_count = 0 ∧
      ∀ i : Fin 4, s'.chassis.output_prev i = s.chassis.output_prev i := by
  unfold reset
  cases hl : s.hw.leftEncoder with
  | none => cases hmid : s.hw.middleEncoder <;> simp [hl, hmid]
  | some lv =>
    cases hr : s.hw.rightEncoder with
    | none => simp [hl, hr] at h
    | some rv => cases hmid : s.hw.middleEncoder <;> simp [hl, hr, hmid]

/-- C11 (amended), checked on the state with `settle_count = 7` and slew memory
`(50, 50, -50, -50)`. -/
theorem reset_settle_count_output_prev_witness :
    ((sampleHardware (0 : ℚ) 0).leftEncoder.isSome →
        (sampleHardware (0 : ℚ) 0).rightEncoder.isSome) ∧
      ∃ s' : State ℚ,
        reset { (sampleState : State ℚ) with
          chassis := { (sampleState : State ℚ).chassis with
            settle_count := 7, output_prev := ![50, 50, -50, -50] } } = some s' ∧
        s'.chassis.settle_count = 0 ∧
        ∀ i : Fin 4, s'.chassis.output_prev i = (![50, 50, -50, -50] : Fin 4 → ℚ) i :=
  ⟨by simp [sampleHardware],
    reset_settle_count_output_prev
      { (sampleState : State ℚ) with
        chassis := { (sampleState : State ℚ).chassis with
          settle_count := 7, output_prev := ![50, 50, -50, -50] } }
      (by simp [sampleState, sampleHardware])⟩

end chassis

namespace odom

variable {α : Type} [LinearOrderedField α]

/-- Both branches of the heading update of `odomTask` leave
`heading_degrees = heading * 180 / M_PI` (for `M_PI ≠ 0`), whatever the pose was
before the tick. -/
theorem odomTick_heading_degrees (m : Libm α) (hpi : m.M_PI ≠ 0) (g : α) (s : State α)
    (l : OdomLocals α) (s' : State α) (hrun : odomTick m g s = some (l, s')) :
    s'.odom.heading_degrees = s'.odom.heading * 180 / m.M_PI := by
  obtain ⟨-, hdead, hsens, -, -, -, -, -⟩ := odomTick_spec m g s l s' hrun
  cases hi : s.hw.imu with
  | none => exact (hdead hi).2.2
  | some a =>
    obtain ⟨h1, h2, -⟩ := hsens a hi
    rw [h1, h2]
    field_simp

/-- C12, at `odom::reset (point, angle)`: from a pose with `heading = 0` and
`heading_degrees = 0`, which satisfies `heading_degrees = heading * 180 / π`,
`reset ((0, 0), 90)` sets `heading = 90 * π / 180` and leaves
`heading_degrees = 0`, while `heading * 180 / π = 90`: the invariant is lost. -/
theorem odom_reset_heading_degrees_stale :
    (sampleState : State ℝ).odom.heading_degrees =
        (sampleState : State ℝ).odom.heading * 180 / Real.pi ∧
      (reset ⟨Real.pi, Real.sin, Real.cos, fun a b => Complex.arg ⟨b, a⟩⟩ (0, 0) 90
        (sampleState : State ℝ)).odom.heading = 90 * Real.pi / 180 ∧
      (reset ⟨Real.pi, Real.sin, Real.cos, fun a b => Complex.arg ⟨b, a⟩⟩ (0, 0) 90
        (sampleState : State ℝ)).odom.heading_degrees = 0 ∧
      (reset ⟨Real.pi, Real.sin, Real.cos, fun a b => Complex.arg ⟨b, a⟩⟩ (0, 0) 90
        (sampleState : State ℝ)).odom.heading * 180 / Real.pi = 90 ∧
      (reset ⟨Real.pi, Real.sin, Real.cos, fun a b => Complex.arg ⟨b, a⟩⟩ (0, 0) 90
        (sampleState : State ℝ)).odom.heading_degrees ≠
        (reset ⟨Real.pi, Real.sin, Real.cos, fun a b => Complex.arg ⟨b, a⟩⟩ (0, 0) 90
          (sampleState : State ℝ)).odom.heading * 180 / Real.pi := by
  have hpi : Real.pi ≠ 0 := Real.pi_ne_zero
  have hh : (reset ⟨Real.pi, Real.sin, Real.cos, fun a b => Complex.arg ⟨b, a⟩⟩ (0, 0) 90
      (sampleState : State ℝ)).odom.heading = 90 * Real.pi / 180 := rfl
  have hd : (reset ⟨Real.pi, Real.sin, Real.cos, fun a b => Complex.arg ⟨b, a⟩⟩ (0, 0) 90
      (sampleState : State ℝ)).odom.heading_degrees = 0 := rfl
  have h90 : (90 * Real.pi / 180) * 180 / Real.pi = (90 : ℝ) := by field_simp
  refine ⟨by simp [sampleState], hh, hd, by rw [hh, h90], ?_⟩
  rw [hh, hd, h90]
  norm_num

end odom

namespace chassis

variable {α : Type} [LinearOrderedField α]

/-- With a step `s ≥ 0`, the value `slew` stores lies between the previous
value and the target. -/
theorem slew_between (t s c : α) (hs : 0 ≤ s) :
    Min.min c t ≤ (slew t s c).2 ∧ (slew t s c).2 ≤ Max.max c t := by
  have hst : (0 : α) ≤ (if |c| > |t| then 200 else s) := by
    split_ifs
    · norm_num
    · exact hs
  simp only [slew]
  generalize (if |c| > |t| then (200 : α) else s) = st at hst
  split_ifs with h1 h2
  · exact ⟨le_trans (min_le_left _ _) (by linarith),
      le_trans (le_of_lt h1) (le_max_right _ _)⟩
  · exact ⟨le_trans (min_le_right _ _) (le_of_lt h2),
      le_trans (by linarith) (le_max_left _ _)⟩
  · exact ⟨min_le_right _ _, le_max_right _ _⟩

/-- With a step `s ≥ 0`, a bound `B` on the magnitudes of the previous value
and of the target bounds the magnitude of the value `slew` stores. -/
theorem slew_abs_le (t s c B : α) (hs : 0 ≤ s) (hc : |c| ≤ B) (ht : |t| ≤ B) :
    |(slew t s c).2| ≤ B := by
  obtain ⟨h1, h2⟩ := slew_between t s c hs
  rw [abs_le] at hc ht ⊢
  exact ⟨le_trans (le_min hc.1 ht.1) h1, le_trans h2 (max_le hc.2 ht.2)⟩

/-- With a cap `max ≥ 0`, the magnitude of `limitSpeed speed max` is at most
`max`. -/
theorem limitSpeed_abs_le (speed max : α) (h : 0 ≤ max) : |limitSpeed speed max| ≤ max := by
  obtain ⟨-, h1, h2⟩ := limitSpeed_eq_clamp speed max h
  exact abs_le.mpr ⟨h1, h2⟩

/-- The scaling reference of the holonomic branch is the projection of larger
magnitude. -/
theorem holoOutput_largestVector (m : Libm α) (mode : Mode) (va maxSpeed maxTurn L R : α) :
    |(holoOutput m mode va maxSpeed maxTurn L R).largestVector| =
      Max.max |m.sin (m.M_PI / 4 - va)| |m.sin (m.M_PI / 4 + va)| := by
  simp only [holoOutput]
  split_ifs with h
  · exact (max_eq_left (le_of_lt h)).symm
  · exact (max_eq_right (not_lt.mp h)).symm

/-- The scaling magnitude of the holonomic branch: `|maxSpeed|` in mode
`ODOM_HOLO_THRU`, the larger of `|L|` and `|R|` in every other mode. -/
theorem holoOutput_scale (m : Libm α) (mode : Mode) (va maxSpeed maxTurn L R : α) :
    (holoOutput m mode va maxSpeed maxTurn L R).scalingFactor *
        |(holoOutput m mode va maxSpeed maxTurn L R).largestVector| =
      (if |(holoOutput m mode va maxSpeed maxTurn L R).largestVector| = 0 then 0
        else if mode = Mode.ODOM_HOLO_THRU then |maxSpeed| else Max.max |L| |R|) ∧
    0 ≤ (holoOutput m mode va maxSpeed maxTurn L R).scalingFactor ∧
    (holoOutput m mode va maxSpeed maxTurn L R).frontVector =
      m.sin (m.M_PI / 4 - va) * (holoOutput m mode va maxSpeed maxTurn L R).scalingFactor ∧
    (holoOutput m mode va maxSpeed maxTurn L R).backVector =
      m.sin (m.M_PI / 4 + va) * (holoOutput m mode va maxSpeed maxTurn L R).scalingFactor := by
  have hls : |(if |L| > |R| then L else R)| = Max.max |L| |R| := by
    split_ifs with h
    · exact (max_eq_left (le_of_lt h)).symm
    · exact (max_eq_right (not_lt.mp h)).symm
  simp only [holoOutput, hls]
  generalize (if |m.sin (m.M_PI / 4 - va)| > |m.sin (m.M_PI / 4 + va)| then
    m.sin (m.M_PI / 4 - va) else m.sin (m.M_PI / 4 + va)) = lv
  refine ⟨?_, ?_, trivial, trivial⟩
  · by_cases h0 : |lv| = 0
    · simp [h0]
    · rw [if_neg h0]
      split_ifs <;> exact div_mul_cancel₀ _ h0
  · split_ifs <;> exact div_nonneg (by positivity) (abs_nonneg _)

/-- After scaling, neither wheel-set vector of the holonomic branch exceeds the
scaling magnitude.  (Should the scaling reference be `0`, the division of the
model gives the scaling factor `0`; over the reals the reference is never `0`,
see `sin_projections_sq`.) -/
theorem holoOutput_vectors_le (m : Libm α) (mode : Mode) (va maxSpeed maxTurn L R : α) :
    |(holoOutput m mode va maxSpeed maxTurn L R).frontVector| ≤
        (if mode = Mode.ODOM_HOLO_THRU then |maxSpeed| else Max.max |L| |R|) ∧
      |(holoOutput m mode va maxSpeed maxTurn L R).backVector| ≤
        (if mode = Mode.ODOM_HOLO_THRU then |maxSpeed| else Max.max |L| |R|) := by
  obtain ⟨hsc, hnn, hf, hb⟩ := holoOutput_scale m mode va maxSpeed maxTurn L R
  have hlv := holoOutput_largestVector m mode va maxSpeed maxTurn L R
  have hX : (0 : α) ≤ (if mode = Mode.ODOM_HOLO_THRU then |maxSpeed| else Max.max |L| |R|) := by
    split_ifs
    · exact abs_nonneg _
    · exact le_trans (abs_nonneg L) (le_max_left _ _)
  have hprod : (holoOutput m mode va maxSpeed maxTurn L R).scalingFactor *
      |(holoOutput m mode va maxSpeed maxTurn L R).largestVector| ≤
      (if mode = Mode.ODOM_HOLO_THRU then |maxSpeed| else Max.max |L| |R|) := by
    rw [hsc]
    split_ifs <;> first | exact le_rfl | exact abs_nonneg _ |
      exact le_trans (abs_nonneg L) (le_max_left _ _)
  constructor
  · rw [hf, abs_mul, abs_of_nonneg hnn, mul_comm]
    refine le_trans (mul_le_mul_of_nonneg_left ?_ hnn) hprod
    rw [hlv]
    exact le_max_left _ _
  · rw [hb, abs_mul, abs_of_nonneg hnn, mul_comm]
    refine le_trans (mul_le_mul_of_nonneg_left ?_ hnn) hprod
    rw [hlv]
    exact le_max_right _ _

/-- The four outputs of the holonomic branch are bounded in magnitude by
`maxSpeed + maxTurn` when the two speeds are bounded by `maxSpeed`. -/
theorem holoOutput_output_le (m : Libm α) (mode : Mode) (va maxSpeed maxTurn L R : α)
    (hmax : 0 ≤ maxSpeed) (hturn : 0 ≤ maxTurn) (hL : |L| ≤ maxSpeed) (hR : |R| ≤ maxSpeed)
    (i : Fin 4) :
    |(holoOutput m mode va maxSpeed maxTurn L R).output i| ≤ maxSpeed + maxTurn := by
  obtain ⟨hf, hb⟩ := holoOutput_vectors_le m mode va maxSpeed maxTurn L R
  have hX : (if mode = Mode.ODOM_HOLO_THRU then |maxSpeed| else Max.max |L| |R|) ≤ maxSpeed := by
    split_ifs
    · rw [abs_of_nonneg hmax]
    · exact max_le hL hR
  have hf' := abs_le.mp (le_trans hf hX)
  have hb' := abs_le.mp (le_trans hb hX)
  have ht : |(holoOutput m mode va maxSpeed maxTurn L R).turnSpeed| ≤ maxTurn :=
    limitSpeed_abs_le _ _ hturn
  have ht' := abs_le.mp ht
  have hout : (holoOutput m mode va maxSpeed maxTurn L R).output =
      ![(holoOutput m mode va maxSpeed maxTurn L R).frontVector -
          (holoOutput m mode va maxSpeed maxTurn L R).turnSpeed,
        (holoOutput m mode va maxSpeed maxTurn L R).backVector -
          (holoOutput m mode va maxSpeed maxTurn L R).turnSpeed,
        (holoOutput m mode va maxSpeed maxTurn L R).backVector +
          (holoOutput m mode va maxSpeed maxTurn L R).turnSpeed,
        (holoOutput m mode va maxSpeed maxTurn L R).frontVector +
          (holoOutput m mode va maxSpeed maxTurn L R).turnSpeed] := rfl
  rw [hout, abs_le]
  fin_cases i <;> simp <;> constructor <;> linarith [hf'.1, hf'.2, hb'.1, hb'.2, ht'.1, ht'.2]

/-- The outputs of the control tick before slewing are bounded in magnitude by
`maxSpeed` when `vectorAngle = 0` and by `maxSpeed + maxTurn` otherwise. -/
theorem tickOutput_abs_le (m : Libm α) (s : State α) (speeds : α × α)
    (hmax : 0 ≤ s.chassis.maxSpeed) (hturn : 0 ≤ s.chassis.maxTurn) (i : Fin 4) :
    (s.pid.vectorAngle = 0 → |tickOutput m s speeds i| ≤ s.chassis.maxSpeed) ∧
      |tickOutput m s speeds i| ≤ s.chassis.maxSpeed + s.chassis.maxTurn := by
  have hL := limitSpeed_abs_le speeds.1 s.chassis.maxSpeed hmax
  have hR := limitSpeed_abs_le speeds.2 s.chassis.maxSpeed hmax
  have hzero : s.pid.vectorAngle = 0 → |tickOutput m s speeds i| ≤ s.chassis.maxSpeed := by
    intro hva
    simp only [tickOutput, hva, ne_eq, not_true_eq_false, if_false]
    fin_cases i <;> simpa using (by first | exact hL | exact hR)
  refine ⟨hzero, ?_⟩
  by_cases hva : s.pid.vectorAngle = 0
  · exact le_trans (hzero hva) (by linarith)
  · simp only [tickOutput, ne_eq, hva, not_false_eq_true, if_true]
    exact holoOutput_output_le m _ _ _ _ _ _ hmax hturn hL hR i

/-- The slew memory after a control tick: unchanged in a mode the tick does not
dispatch, the slewed output otherwise; the caps are kept in both cases. -/
theorem chassisTick_output_prev (m : Libm α) (pidc : Calculators α) (s : State α) :
    (tickSpeeds pidc s = none → chassisTick m pidc s = s) ∧
      (∀ speeds, tickSpeeds pidc s = some speeds → ∀ i : Fin 4,
        (chassisTick m pidc s).chassis.output_prev i =
          (slew (tickOutput m s speeds i) s.chassis.accel_step (s.chassis.output_prev i)).2) ∧
      (chassisTick m pidc s).chassis.maxSpeed = s.chassis.maxSpeed ∧
      (chassisTick m pidc s).chassis.maxTurn = s.chassis.maxTurn := by
  unfold chassisTick
  cases h : tickSpeeds pidc s with
  | none => simp
  | some sp => simp

/-- C13, as stated, fails for a nonzero `vectorAngle`: in mode `LINEAR` with
`vectorAngle = π / 4`, `maxSpeed = maxTurn = 100`, `accel_step = 20`, slew
memory `(0, 0, 100, 0)` (inside `[-100, 100]`) and calculator speeds
`(-100, 100)`, the output of channel 2 before slewing is
`backVector + turnSpeed = 100 + 100 = 200`, and the tick leaves
`output_prev[2] = 120`, outside `[-100, 100]`. -/
theorem chassisTick_envelope_broken :
    ((sampleState : State ℝ).chassis.maxSpeed = 100 ∧
        (sampleState : State ℝ).chassis.maxTurn = 100 ∧
        (sampleState : State ℝ).chassis.accel_step = 20) ∧
      (∀ i : Fin 4, -(100 : ℝ) ≤ (![0, 0, 100, 0] : Fin 4 → ℝ) i ∧
        (![0, 0, 100, 0] : Fin 4 → ℝ) i ≤ 100) ∧
      tickOutput ⟨Real.pi, Real.sin, Real.cos, fun a b => Complex.arg ⟨b, a⟩⟩
        { (sampleState : State ℝ) with
          chassis := { (sampleState : State ℝ).chassis with output_prev := ![0, 0, 100, 0] },
          pid := { (sampleState : State ℝ).pid with
            mode := Mode.LINEAR, vectorAngle := Real.pi / 4 } } (-100, 100) 2 = 200 ∧
      (chassisTick ⟨Real.pi, Real.sin, Real.cos, fun a b => Complex.arg ⟨b, a⟩⟩
        ⟨fun _ => (-100, 100), fun _ => (0, 0), fun _ => (0, 0)⟩
        { (sampleState : State ℝ) with
          chassis := { (sampleState : State ℝ).chassis with output_prev := ![0, 0, 100, 0] },
          pid := { (sampleState : State ℝ).pid with
            mode := Mode.LINEAR, vectorAngle := Real.pi / 4 } }).chassis.output_prev 2 = 120 ∧
      ¬ ((120 : ℝ) ≤ 100) := by
  have hva : Real.pi / 4 ≠ 0 := by positivity
  have hs0 : Real.sin (Real.pi / 4 - Real.pi / 4) = 0 := by rw [sub_self, Real.sin_zero]
  have hs1 : Real.sin (Real.pi / 4 + Real.pi / 4) = 1 := by
    rw [show Real.pi / 4 + Real.pi / 4 = Real.pi / 2 by ring, Real.sin_pi_div_two]
  have hout : tickOutput ⟨Real.pi, Real.sin, Real.cos, fun a b => Complex.arg ⟨b, a⟩⟩
      { (sampleState : State ℝ) with
        chassis := { (sampleState : State ℝ).chassis with output_prev := ![0, 0, 100, 0] },
        pid := { (sampleState : State ℝ).pid with
          mode := Mode.LINEAR, vectorAngle := Real.pi / 4 } } (-100, 100) 2 = 200 := by
    simp only [tickOutput, holoOutput, sampleState, ne_eq, hva, not_false_eq_true, if_true,
      hs0, hs1]
    norm_num [limitSpeed]
  have hsp : tickSpeeds ⟨fun _ => (-100, 100), fun _ => (0, 0), fun _ => (0, 0)⟩
      { (sampleState : State ℝ) with
        chassis := { (sampleState : State ℝ).chassis with output_prev := ![0, 0, 100, 0] },
        pid := { (sampleState : State ℝ).pid with
          mode := Mode.LINEAR, vectorAngle := Real.pi / 4 } } = some (-100, 100) := by
    simp [tickSpeeds]
  refine ⟨⟨rfl, rfl, rfl⟩, ?_, hout, ?_, by norm_num⟩
  · intro i
    fin_cases i <;> norm_num
  · rw [(chassisTick_output_prev _ _ _).2.1 _ hsp 2, hout]
    norm_num [slew, sampleState]

/-- C13 (amended). With `maxSpeed ≥ 0`, `maxTurn ≥ 0` and `accel_step ≥ 0`, for
every mode and every calculator output: when `vectorAngle = 0`, if every
`output_prev[i]` lies in `[-maxSpeed, maxSpeed]` before a control tick then
every `output_prev[i]` lies in `[-maxSpeed, maxSpeed]` after it; when
`vectorAngle ≠ 0` the same holds for the envelope
`[-(maxSpeed + maxTurn), maxSpeed + maxTurn]` of the outputs that carry the turn
term.  The tick keeps `maxSpeed` and `maxTurn`. -/
theorem chassisTick_envelope (m : Libm α) (pidc : Calculators α) (s : State α)
    (hmax : 0 ≤ s.chassis.maxSpeed) (hturn : 0 ≤ s.chassis.maxTurn)
    (hacc : 0 ≤ s.chassis.accel_step) :
    (s.pid.vectorAngle = 0 →
        (∀ i : Fin 4, -s.chassis.maxSpeed ≤ s.chassis.output_prev i ∧
          s.chassis.output_prev i ≤ s.chassis.maxSpeed) →
        ∀ i : Fin 4, -s.chassis.maxSpeed ≤ (chassisTick m pidc s).chassis.output_prev i ∧
          (chassisTick m pidc s).chassis.output_prev i ≤ s.chassis.maxSpeed) ∧
      (s.pid.vectorAngle ≠ 0 →
        (∀ i : Fin 4, -(s.chassis.maxSpeed + s.chassis.maxTurn) ≤ s.chassis.output_prev i ∧
          s.chassis.output_prev i ≤ s.chassis.maxSpeed + s.chassis.maxTurn) →
        ∀ i : Fin 4,
          -(s.chassis.maxSpeed + s.chassis.maxTurn) ≤
              (chassisTick m pidc s).chassis.output_prev i ∧
            (chassisTick m pidc s).chassis.output_prev i ≤
              s.chassis.maxSpeed + s.chassis.maxTurn) ∧
      (chassisTick m pidc s).chassis.maxSpeed = s.chassis.maxSpeed ∧
      (chassisTick m pidc s).chassis.maxTurn = s.chassis.maxTurn := by
  obtain ⟨hnone, hsome, hms, hmt⟩ := chassisTick_output_prev m pidc s
  refine ⟨?_, ?_, hms, hmt⟩
  · intro hva hprev i
    cases hsp : tickSpeeds pidc s with
    | none => rw [hnone hsp]; exact hprev i
    | some speeds =>
      rw [hsome speeds hsp i]
      exact abs_le.mp (slew_abs_le _ _ _ _ hacc (abs_le.mpr (hprev i))
        ((tickOutput_abs_le m s speeds hmax hturn i).1 hva))
  · intro _ hprev i
    cases hsp : tickSpeeds pidc s with
    | none => rw [hnone hsp]; exact hprev i
    | some speeds =>
      rw [hsome speeds hsp i]
      exact abs_le.mp (slew_abs_le _ _ _ _ hacc (abs_le.mpr (hprev i))
        (tickOutput_abs_le m s speeds hmax hturn i).2)

/-- C13 (amended), checked over the reals on the state of the counterexample
(`vectorAngle = π / 4`, slew memory `(0, 0, 100, 0)`, caps `100` and `100`):
after the tick every `output_prev[i]` lies in `[-200, 200]`. -/
theorem chassisTick_envelope_witness :
    (0 : ℝ) ≤ 100 ∧ (0 : ℝ) ≤ 20 ∧ Real.pi / 4 ≠ 0 ∧
      (∀ i : Fin 4, -((100 : ℝ) + 100) ≤ (![0, 0, 100, 0] : Fin 4 → ℝ) i ∧
        (![0, 0, 100, 0] : Fin 4 → ℝ) i ≤ 100 + 100) ∧
      ∀ i : Fin 4,
        -((100 : ℝ) + 100) ≤
          (chassisTick ⟨Real.pi, Real.sin, Real.cos, fun a b => Complex.arg ⟨b, a⟩⟩
            ⟨fun _ => (-100, 100), fun _ => (0, 0), fun _ => (0, 0)⟩
            { (sampleState : State ℝ) with
              chassis := { (sampleState : State ℝ).chassis with
                output_prev := ![0, 0, 100, 0] },
              pid := { (sampleState : State ℝ).pid with
                mode := Mode.LINEAR, vectorAngle := Real.pi / 4 } }).chassis.output_prev i ∧
        (chassisTick ⟨Real.pi, Real.sin, Real.cos, fun a b => Complex.arg ⟨b, a⟩⟩
            ⟨fun _ => (-100, 100), fun _ => (0, 0), fun _ => (0, 0)⟩
            { (sampleState : State ℝ) with
              chassis := { (sampleState : State ℝ).chassis with
                output_prev := ![0, 0, 100, 0] },
              pid := { (sampleState : State ℝ).pid with
                mode := Mode.LINEAR, vectorAngle := Real.pi / 4 } }).chassis.output_prev i ≤
          100 + 100 := by
  have hva : Real.pi / 4 ≠ 0 := by positivity
  have hprev : ∀ i : Fin 4, -((100 : ℝ) + 100) ≤ (![0, 0, 100, 0] : Fin 4 → ℝ) i ∧
      (![0, 0, 100, 0] : Fin 4 → ℝ) i ≤ 100 + 100 := by
    intro i
    fin_cases i <;> norm_num
  exact ⟨by norm_num, by norm_num, hva, hprev,
    (chassisTick_envelope ⟨Real.pi, Real.sin, Real.cos, fun a b => Complex.arg ⟨b, a⟩⟩
      ⟨fun _ => (-100, 100), fun _ => (0, 0), fun _ => (0, 0)⟩
      { (sampleState : State ℝ) with
        chassis := { (sampleState : State ℝ).chassis with output_prev := ![0, 0, 100, 0] },
        pid := { (sampleState : State ℝ).pid with
          mode := Mode.LINEAR, vectorAngle := Real.pi / 4 } }
      (by norm_num [sampleState]) (by norm_num [sampleState])
      (by norm_num [sampleState])).2.1 hva hprev⟩

/-- C14. A control tick in mode `DISABLE`, or in `ODOM_POSE`, which the tick
does not dispatch either, is a no-op: the state after the tick is the state
before it, so no actuator command is appended to the sink and `output_prev`,
`maxSpeed`, `maxTurn`, `settle_count` and the targets are unchanged. -/
theorem chassisTick_disabled (m : Libm α) (pidc : Calculators α) (s : State α)
    (hmode : s.pid.mode = Mode.DISABLE ∨ s.pid.mode = Mode.ODOM_POSE) :
    chassisTick m pidc s = s ∧ (chassisTick m pidc s).sink = s.sink ∧
      (chassisTick m pidc s).chassis.output_prev = s.chassis.output_prev ∧
      (chassisTick m pidc s).chassis.maxSpeed = s.chassis.maxSpeed ∧
      (chassisTick m pidc s).chassis.maxTurn = s.chassis.maxTurn ∧
      (chassisTick m pidc s).chassis.settle_count = s.chassis.settle_count ∧
      (chassisTick m pidc s).pid = s.pid := by
  have hnone : tickSpeeds pidc s = none := by
    unfold tickSpeeds
    rcases hmode with h | h <;> simp [h]
  have h := (chassisTick_output_prev m pidc s).1 hnone
  rw [h]
  exact ⟨rfl, rfl, rfl, rfl, rfl, rfl, rfl⟩

/-- C14, checked over the reals on the sample state, whose mode is `DISABLE` and
whose sink is empty: the tick returns the same state and the sink stays
empty. -/
theorem chassisTick_disabled_witness :
    ((sampleState : State ℝ).pid.mode = Mode.DISABLE ∨
        (sampleState : State ℝ).pid.mode = Mode.ODOM_POSE) ∧
      chassisTick ⟨Real.pi, Real.sin, Real.cos, fun a b => Complex.arg ⟨b, a⟩⟩
        ⟨fun _ => (50, 50), fun _ => (50, -50), fun _ => (50, 50)⟩ (sampleState : State ℝ) =
        sampleState ∧
      (chassisTick ⟨Real.pi, Real.sin, Real.cos, fun a b => Complex.arg ⟨b, a⟩⟩
        ⟨fun _ => (50, 50), fun _ => (50, -50), fun _ => (50, 50)⟩
        (sampleState : State ℝ)).sink = [] :=
  ⟨Or.inl rfl,
    (chassisTick_disabled ⟨Real.pi, Real.sin, Real.cos, fun a b => Complex.arg ⟨b, a⟩⟩
      ⟨fun _ => (50, 50), fun _ => (50, -50), fun _ => (50, 50)⟩ (sampleState : State ℝ)
      (Or.inl rfl)).1,
    (chassisTick_disabled ⟨Real.pi, Real.sin, Real.cos, fun a b => Complex.arg ⟨b, a⟩⟩
      ⟨fun _ => (50, 50), fun _ => (50, -50), fun _ => (50, 50)⟩ (sampleState : State ℝ)
      (Or.inl rfl)).2.1⟩

/-- C16. Threshold selection of the settle detector: `wheelMoving (sv, &psv)`
returns `1` exactly when `|sv - psv|` is strictly greater than the threshold and
`0` otherwise, stores `sv` in `*psv`, and the threshold is
`settle_threshold_angular` in mode `ANGULAR` and `settle_threshold_linear` in
every other mode; a change equal to the threshold returns `0`. -/
theorem wheelMoving_threshold (c : Chassis α) (mode : Mode) (sv psv : α) :
    ((wheelMoving c mode sv psv).1 = 1 ↔
        |sv - psv| > (if mode = Mode.ANGULAR then c.settle_threshold_angular
          else c.settle_threshold_linear)) ∧
      ((wheelMoving c mode sv psv).1 = 0 ↔
        ¬ |sv - psv| > (if mode = Mode.ANGULAR then c.settle_threshold_angular
          else c.settle_threshold_linear)) ∧
      (wheelMoving c mode sv psv).2 = sv ∧
      (mode = Mode.ANGULAR →
        ((wheelMoving c mode sv psv).1 = 1 ↔ |sv - psv| > c.settle_threshold_angular)) ∧
      (mode ≠ Mode.ANGULAR →
        ((wheelMoving c mode sv psv).1 = 1 ↔ |sv - psv| > c.settle_threshold_linear)) ∧
      (|sv - psv| = (if mode = Mode.ANGULAR then c.settle_threshold_angular
          else c.settle_threshold_linear) → (wheelMoving c mode sv psv).1 = 0) := by
  have h1 : (wheelMoving c mode sv psv).1 = 1 ↔
      |sv - psv| > (if mode = Mode.ANGULAR then c.settle_threshold_angular
        else c.settle_threshold_linear) := by
    simp only [wheelMoving]
    split_ifs <;> simp_all
  have h0 : (wheelMoving c mode sv psv).1 = 0 ↔
      ¬ |sv - psv| > (if mode = Mode.ANGULAR then c.settle_threshold_angular
        else c.settle_threshold_linear) := by
    simp only [wheelMoving]
    split_ifs <;> simp_all
  refine ⟨h1, h0, rfl, ?_, ?_, ?_⟩
  · intro hm
    rw [h1, if_pos hm]
  · intro hm
    rw [h1, if_neg hm]
  · intro he
    rw [h0, he]
    exact lt_irrefl _

/-- C16, checked with thresholds `3` (linear) and `1` (angular): a change of `2`
is flagged in mode `ANGULAR` and not in modes `LINEAR`, `ODOM` and `DISABLE`; a
change of exactly `3` is not flagged in mode `LINEAR`, a change of `4` is. -/
theorem wheelMoving_threshold_witness :
    ((wheelMoving (sampleState : State ℚ).chassis Mode.ANGULAR 2 0).1 = 1 ↔
        |(2 : ℚ) - 0| > (if Mode.ANGULAR = Mode.ANGULAR then
          (sampleState : State ℚ).chassis.settle_threshold_angular
          else (sampleState : State ℚ).chassis.settle_threshold_linear)) ∧
      wheelMoving (sampleState : State ℚ).chassis Mode.ANGULAR 2 0 = (1, 2) ∧
      wheelMoving (sampleState : State ℚ).chassis Mode.LINEAR 2 0 = (0, 2) ∧
      wheelMoving (sampleState : State ℚ).chassis Mode.ODOM 2 0 = (0, 2) ∧
      wheelMoving (sampleState : State ℚ).chassis Mode.DISABLE 2 0 = (0, 2) ∧
      wheelMoving (sampleState : State ℚ).chassis Mode.LINEAR 3 0 = (0, 3) ∧
      wheelMoving (sampleState : State ℚ).chassis Mode.LINEAR 4 0 = (1, 4) := by
  refine ⟨(wheelMoving_threshold (sampleState : State ℚ).chassis Mode.ANGULAR 2 0).1,
    ?_, ?_, ?_, ?_, ?_, ?_⟩ <;>
  simp [wheelMoving, sampleState] <;> norm_num

end chassis

namespace odom

/-- Which configurations assign `middle_pos`: when the sensor reads complete,
`middle_pos` holds a reading exactly when there is a middle encoder, or there
is no left encoder and the chassis is holonomic. -/
theorem readPositions_middle {α : Type} (hw : Hardware α) (holonomic : Bool) (l r : α)
    (mid : Option α)
    (h : readPositions hw holonomic = some (l, r, mid)) :
    (mid.isSome ↔ hw.middleEncoder.isSome ∨ (hw.leftEncoder = none ∧ holonomic = true)) := by
  unfold readPositions at h
  cases hl : hw.leftEncoder <;> cases hr : hw.rightEncoder <;>
    cases hm : hw.middleEncoder <;> cases holonomic <;>
    simp [hl, hr, hm] at h <;> obtain ⟨-, -, rfl⟩ := h <;> simp

/-- C15, on the configuration without quadrature encoders, middle encoder and
IMU and with `holonomic = false`: the sensor reads leave `middle_pos`
unassigned; `delta_middle` is computed from its indeterminate content all the
same, so the tick gives `delta_middle = 0`, `global_x = 0` when that content is
`0` and `delta_middle = 1`, `global_x = 1` when it is `40`, the sensors reading
the same. -/
theorem odomTick_middle_pos_unassigned :
    readPositions (sampleHardware (80 : ℝ) 80) false = some (80, 80, none) ∧
      ∃ (l0 l1 : OdomLocals ℝ) (s0 s1 : State ℝ),
        odomTick ⟨Real.pi, Real.sin, Real.cos, fun a b => Complex.arg ⟨b, a⟩⟩ 0
          { (sampleState : State ℝ) with hw := sampleHardware 80 80 } = some (l0, s0) ∧
        odomTick ⟨Real.pi, Real.sin, Real.cos, fun a b => Complex.arg ⟨b, a⟩⟩ 40
          { (sampleState : State ℝ) with hw := sampleHardware 80 80 } = some (l1, s1) ∧
        l0.middle_pos = none ∧ l1.middle_pos = none ∧
        l0.delta_middle = 0 ∧ l1.delta_middle = 1 ∧
        s0.odom.global_x = 0 ∧ s1.odom.global_x = 1 ∧
        s0.odom.prev_middle_pos = 0 ∧ s1.odom.prev_middle_pos = 40 := by
  refine ⟨rfl, _, _, _, _, rfl, rfl, rfl, rfl, ?_, ?_, ?_, ?_, rfl, rfl⟩
  · norm_num [sampleState, sampleHardware]
  · norm_num [sampleState, sampleHardware]
  · norm_num [sampleState, sampleHardware]
  · norm_num [sampleState, sampleHardware]

end odom

namespace chassis

variable {α : Type} [LinearOrderedField α] [FloorRing α]

/-- The relative set point differs from the absolute one by the truncated
remainder of the heading and a correction of `-360`, `0` or `360`. -/
theorem relativeSetPoint_eq (sp a : α) :
    ∃ j : ℤ, (j = -1 ∨ j = 0 ∨ j = 1) ∧
      relativeSetPoint sp a = sp - ((Int.tmod (truncToInt a) 360 : Int) : α) + 360 * (j : α) := by
  simp only [relativeSetPoint]
  split_ifs
  · exact ⟨-1, Or.inl rfl, by push_cast; ring⟩
  · exact ⟨1, Or.inr (Or.inr rfl), by push_cast; ring⟩
  · exact ⟨0, Or.inr (Or.inl rfl), by push_cast; ring⟩

/-- For a heading `a ≥ 0` and an absolute set point in `[0, 360)` the relative
set point lies in `[-180, 180]`. -/
theorem relativeSetPoint_of_nonneg (sp a : α) (hsp0 : 0 ≤ sp) (hsp : sp < 360) (ha : 0 ≤ a) :
    -180 ≤ relativeSetPoint sp a ∧ relativeSetPoint sp a ≤ 180 := by
  have ht : truncToInt a = ⌊a⌋ := by simp [truncToInt, ha]
  have ht0 : 0 ≤ truncToInt a := by rw [ht]; exact Int.floor_nonneg.mpr ha
  have hr0 : (0 : α) ≤ ((Int.tmod (truncToInt a) 360 : Int) : α) := by
    exact_mod_cast Int.tmod_nonneg 360 ht0
  have hr1 : ((Int.tmod (truncToInt a) 360 : Int) : α) < 360 := by
    exact_mod_cast Int.tmod_lt_of_pos (truncToInt a) (by norm_num : (0 : Int) < 360)
  simp only [relativeSetPoint]
  split_ifs with h1 h2 <;> constructor <;> linarith

/-- With an IMU reading `a` as heading, `turnAbsoluteAsync (sp, max)` completes
and leaves `angularTarget = sp + (a - (int) a) + 360 * k` for an integer `k`:
the requested heading plus the fractional part of the current heading, up to
whole turns. -/
theorem turnAbsoluteAsync_target (sp : α) (max : Int) (s : State α) (a : α)
    (himu : s.hw.imu = some a) (h : s.hw.leftEncoder.isSome → s.hw.rightEncoder.isSome) :
    ∃ (s' : State α) (k : ℤ), turnAbsoluteAsync sp max s = some s' ∧
      s'.pid.angularTarget = relativeSetPoint sp a + a ∧
      s'.pid.angularTarget = sp + (a - ((truncToInt a : Int) : α)) + 360 * (k : α) := by
  obtain ⟨s1, hreset, -, -, -, himu1, -, -, -, -⟩ :=
    reset_spec { s with pid := { s.pid with mode := Mode.ANGULAR } } h
  simp only at himu1
  obtain ⟨j, -, hj⟩ := relativeSetPoint_eq sp a
  have hdiv : ((truncToInt a : Int) : α) =
      ((Int.tmod (truncToInt a) 360 : Int) : α) + 360 * ((Int.tdiv (truncToInt a) 360 : Int) : α) := by
    have := Int.tmod_add_tdiv (truncToInt a) 360
    exact_mod_cast this.symm
  have hrun : turnAbsoluteAsync sp max s =
      some { s1 with
        chassis := { s1.chassis with maxSpeed := (max : α) },
        pid := { s1.pid with angularTarget := relativeSetPoint sp a + a } } := by
    have hreset' : reset { ({ s with pid := { s.pid with mode := Mode.ANGULAR } } : State α) with
        pid := { ({ s with pid := { s.pid with mode := Mode.ANGULAR } } : State α).pid with
          mode := Mode.ANGULAR } } = some s1 := hreset
    have hang : angle s1 = some a := by simp [angle, himu1, himu]
    have hang0 : angle ({ s with pid := { s.pid with mode := Mode.ANGULAR } } : State α) =
        some a := by simp [angle, himu]
    simp only [turnAbsoluteAsync, hang0, turnAsync, hreset, hreset', hang]
  refine ⟨_, Int.tdiv (truncToInt a) 360 + j, hrun, rfl, ?_⟩
  show relativeSetPoint sp a + a = _
  rw [hj]
  push_cast
  rw [hdiv]
  ring

/-- C17, at the absolute set point `350` with heading `-350`: the truncated
remainder `(int) (-350) % 360` is `-350`, so the relative set point is
`350 + 350 - 360 = 340`, outside `[-180, 180]`; `turnAbsoluteAsync (350, 50)`
with an IMU reading `-350` sets `angularTarget = 340 + (-350) = -10`, a turn of
`340` degrees where `-20` degrees reach the same heading. -/
theorem relativeSetPoint_long_way :
    (0 : ℚ) ≤ 350 ∧ (350 : ℚ) < 360 ∧ truncToInt (-350 : ℚ) = -350 ∧
      Int.tmod (-350) 360 = -350 ∧ relativeSetPoint (350 : ℚ) (-350) = 340 ∧
      ¬ (relativeSetPoint (350 : ℚ) (-350) ≤ 180) ∧
      ∃ s' : State ℚ,
        turnAbsoluteAsync (350 : ℚ) 50
          { (sampleState : State ℚ) with
            hw := { sampleHardware 0 0 with imu := some (-350) } } = some s' ∧
        s'.pid.angularTarget = -10 := by
  have ht : truncToInt (-350 : ℚ) = -350 := by
    have h350 : ((-350 : ℚ)) = ((-350 : ℤ) : ℚ) := by norm_num
    simp only [truncToInt]
    rw [if_neg (by norm_num), h350, Int.ceil_intCast]
  have hm : Int.tmod (-350) 360 = -350 := by decide
  have hrel : relativeSetPoint (350 : ℚ) (-350) = 340 := by
    simp only [relativeSetPoint, ht, hm]
    norm_num
  refine ⟨by norm_num, by norm_num, ht, hm, hrel, by rw [hrel]; norm_num, ?_⟩
  obtain ⟨s', k, hs, htar, -⟩ := turnAbsoluteAsync_target (350 : ℚ) 50
    { (sampleState : State ℚ) with hw := { sampleHardware 0 0 with imu := some (-350) } }
    (-350) rfl (by simp [sampleHardware])
  exact ⟨s', hs, by rw [htar, hrel]; norm_num⟩

/-- C18, at the set point `90` with an IMU heading of `1/2` degree:
`(int) (1/2) % 360 = 0`, the relative set point is `90`, and
`turnAbsoluteAsync (90, 50)` leaves `angularTarget = 90 + 1/2`, which is not
congruent to `90` modulo `360`. -/
theorem turnAbsoluteAsync_fraction_kept :
    truncToInt ((1 : ℚ) / 2) = 0 ∧ relativeSetPoint (90 : ℚ) (1 / 2) = 90 ∧
      ∃ s' : State ℚ,
        turnAbsoluteAsync (90 : ℚ) 50
          { (sampleState : State ℚ) with
            hw := { sampleHardware 0 0 with imu := some (1 / 2) } } = some s' ∧
        s'.pid.angularTarget = 181 / 2 ∧
        ¬ ∃ k : ℤ, s'.pid.angularTarget - 90 = 360 * (k : ℚ) := by
  have ht : truncToInt ((1 : ℚ) / 2) = 0 := by
    simp only [truncToInt]
    rw [if_pos (by norm_num), Int.floor_eq_iff]
    norm_num
  have hrel : relativeSetPoint (90 : ℚ) (1 / 2) = 90 := by
    simp only [relativeSetPoint, ht]
    norm_num
  refine ⟨ht, hrel, ?_⟩
  obtain ⟨s', k, hs, htar, -⟩ := turnAbsoluteAsync_target (90 : ℚ) 50
    { (sampleState : State ℚ) with hw := { sampleHardware 0 0 with imu := some (1 / 2) } }
    (1 / 2) rfl (by simp [sampleHardware])
  have hval : s'.pid.angularTarget = 181 / 2 := by rw [htar, hrel]; norm_num
  refine ⟨s', hs, hval, ?_⟩
  rintro ⟨k, hk⟩
  rw [hval] at hk
  have h1 : (720 : ℚ) * (k : ℚ) = 1 := by linarith
  have h2 : (720 : ℤ) * k = 1 := by exact_mod_cast h1
  omega

end chassis

namespace odom

variable {α : Type} [LinearOrderedField α]

/-- Every divisor met by the loop of `getAngleError` exceeds `M_PI`: the body
runs only when the loop condition `fabs (delta_theta) > M_PI` holds. -/
theorem normalizeDivisors_gt (m : Libm α) (fuel : ℕ) (d : α) :
    ∀ x ∈ normalizeDivisors m fuel d, m.M_PI < x := by
  induction fuel generalizing d with
  | zero => simp [normalizeDivisors]
  | succ n ih =>
    intro x hx
    simp only [normalizeDivisors] at hx
    split_ifs at hx with h
    · rcases List.mem_cons.mp hx with rfl | hx'
      · exact h
      · exact ih _ x hx'
    · simp at hx

/-- C19, as stated, fails: over the reals no pose and no target point make the
loop body of `getAngleError` divide by `fabs (delta_theta) = 0`, whatever the
number of iterations. -/
theorem getAngleError_no_zero_divisor :
    ¬ ∃ (s : State ℝ) (point : ℝ × ℝ) (fuel : ℕ),
      (0 : ℝ) ∈ getAngleErrorDivisors
        ⟨Real.pi, Real.sin, Real.cos, fun a b => Complex.arg ⟨b, a⟩⟩ fuel s point := by
  rintro ⟨s, point, fuel, h⟩
  have := normalizeDivisors_gt ⟨Real.pi, Real.sin, Real.cos, fun a b => Complex.arg ⟨b, a⟩⟩
    fuel _ 0 h
  exact absurd this (not_lt.mpr Real.pi_pos.le)

/-- C19 (amended). The division in the loop of `getAngleError` is guarded by
the loop condition: with `M_PI > 0`, for every pose, target point and number of
iterations, every divisor `fabs (delta_theta)` the body meets is greater than
`M_PI`, hence not `0`; and an angle error of exactly `0` skips the loop, no
division is performed and `0` is returned. -/
theorem getAngleError_divisor_guarded (m : Libm α) (hpi : 0 < m.M_PI) (fuel : ℕ)
    (s : State α) (point : α × α) :
    (∀ x ∈ getAngleErrorDivisors m fuel s point, m.M_PI < x ∧ x ≠ 0) ∧
      (s.odom.heading - m.atan2 (point.2 - s.odom.global_x) (point.1 - s.odom.global_y) = 0 →
        getAngleErrorDivisors m fuel s point = [] ∧
        getAngleError m (fuel + 1) s point = some 0) := by
  constructor
  · intro x hx
    have h := normalizeDivisors_gt m fuel _ x hx
    exact ⟨h, (lt_trans hpi h).ne'⟩
  · intro h0
    have hn : ¬ |(0 : α)| > m.M_PI := by simpa using hpi.le
    constructor
    · simp only [getAngleErrorDivisors, h0]
      cases fuel with
      | zero => rfl
      | succ n => simp only [normalizeDivisors, if_neg hn]
    · simp only [getAngleError, h0, normalizeLoop, if_neg hn]

/-- C19 (amended), checked over the reals on the pose `(0, 0)` with heading `0`
and the target `(y, x) = (1, 0)` straight ahead: the angle error is exactly
`0`, the loop performs no division and `getAngleError` returns `0`. -/
theorem getAngleError_divisor_guarded_witness :
    0 < Real.pi ∧
      (sampleState : State ℝ).odom.heading -
        Complex.arg ⟨1 - (sampleState : State ℝ).odom.global_y,
          0 - (sampleState : State ℝ).odom.global_x⟩ = 0 ∧
      getAngleErrorDivisors ⟨Real.pi, Real.sin, Real.cos, fun a b => Complex.arg ⟨b, a⟩⟩ 5
        (sampleState : State ℝ) (1, 0) = [] ∧
      getAngleError ⟨Real.pi, Real.sin, Real.cos, fun a b => Complex.arg ⟨b, a⟩⟩ (5 + 1)
        (sampleState : State ℝ) (1, 0) = some 0 := by
  have harg : (sampleState : State ℝ).odom.heading -
      Complex.arg ⟨1 - (sampleState : State ℝ).odom.global_y,
        0 - (sampleState : State ℝ).odom.global_x⟩ = 0 := by
    have h1 : (⟨1 - (sampleState : State ℝ).odom.global_y,
        0 - (sampleState : State ℝ).odom.global_x⟩ : ℂ) = 1 := by
      apply Complex.ext <;> simp [sampleState]
    rw [h1, Complex.arg_one]
    simp [sampleState]
  exact ⟨Real.pi_pos, harg,
    (getAngleError_divisor_guarded
      ⟨Real.pi, Real.sin, Real.cos, fun a b => Complex.arg ⟨b, a⟩⟩ Real.pi_pos 5
      (sampleState : State ℝ) (1, 0)).2 harg⟩

end odom

namespace chassis

/-- Over the reals the two projections `sin (π / 4 - a)` and `sin (π / 4 + a)`
are the sine and the cosine of one angle: their squares add up to `1`. -/
theorem sin_projections_sq (a : ℝ) :
    Real.sin (Real.pi / 4 - a) ^ 2 + Real.sin (Real.pi / 4 + a) ^ 2 = 1 := by
  rw [show Real.pi / 4 + a = Real.pi / 2 - (Real.pi / 4 - a) by ring,
    Real.sin_pi_div_two_sub, Real.sin_sq_add_cos_sq]

/-- C20. Holonomic scaling reference, over the reals: for every `vectorAngle`
(nonzero in particular), every mode, every `maxSpeed` and every pair of speeds
`(L, R)`, the scaling divisor `largestVector`, the projection of larger
magnitude among `sin (π / 4 - vectorAngle)` and `sin (π / 4 + vectorAngle)`, is
not `0`, and after scaling `max (|frontVector|, |backVector|)` is
`max (|L|, |R|)` in every mode other than `ODOM_HOLO_THRU` and `|maxSpeed|` in
mode `ODOM_HOLO_THRU`. -/
theorem holoOutput_scaling (m : Libm ℝ) (hm : m.IsReal) (mode : Mode)
    (va maxSpeed maxTurn L R : ℝ) :
    (holoOutput m mode va maxSpeed maxTurn L R).largestVector ≠ 0 ∧
      |(holoOutput m mode va maxSpeed maxTurn L R).largestVector| =
        Max.max |Real.sin (Real.pi / 4 - va)| |Real.sin (Real.pi / 4 + va)| ∧
      (mode ≠ Mode.ODOM_HOLO_THRU →
        Max.max |(holoOutput m mode va maxSpeed maxTurn L R).frontVector|
            |(holoOutput m mode va maxSpeed maxTurn L R).backVector| = Max.max |L| |R|) ∧
      (mode = Mode.ODOM_HOLO_THRU →
        Max.max |(holoOutput m mode va maxSpeed maxTurn L R).frontVector|
            |(holoOutput m mode va maxSpeed maxTurn L R).backVector| = |maxSpeed|) := by
  obtain ⟨hpi, hsin, -, -⟩ := hm
  obtain ⟨hsc, hnn, hf, hb⟩ := holoOutput_scale m mode va maxSpeed maxTurn L R
  have hlv := holoOutput_largestVector m mode va maxSpeed maxTurn L R
  rw [hpi, hsin] at hlv hf hb
  have hne : |(holoOutput m mode va maxSpeed maxTurn L R).largestVector| ≠ 0 := by
    intro h0
    rw [hlv] at h0
    have h1 : |Real.sin (Real.pi / 4 - va)| ≤ 0 := h0 ▸ le_max_left _ _
    have h2 : |Real.sin (Real.pi / 4 + va)| ≤ 0 := h0 ▸ le_max_right _ _
    have e1 : Real.sin (Real.pi / 4 - va) = 0 := abs_eq_zero.mp (le_antisymm h1 (abs_nonneg _))
    have e2 : Real.sin (Real.pi / 4 + va) = 0 := abs_eq_zero.mp (le_antisymm h2 (abs_nonneg _))
    have := sin_projections_sq va
    rw [e1, e2] at this
    norm_num at this
  rw [if_neg hne] at hsc
  have hmax : Max.max |(holoOutput m mode va maxSpeed maxTurn L R).frontVector|
      |(holoOutput m mode va maxSpeed maxTurn L R).backVector| =
      (holoOutput m mode va maxSpeed maxTurn L R).scalingFactor *
        |(holoOutput m mode va maxSpeed maxTurn L R).largestVector| := by
    rw [hf, hb, abs_mul, abs_mul, abs_of_nonneg hnn, ← max_mul_of_nonneg _ _ hnn, hlv, mul_comm]
  refine ⟨fun h => hne (by rw [h, abs_zero]), hlv, ?_, ?_⟩
  · intro hmode
    rw [hmax, hsc, if_neg hmode]
  · intro hmode
    rw [hmax, hsc, if_pos hmode]

/-- C20, checked over the reals with `vectorAngle = π / 4`, `maxSpeed = 70` and
speeds `(-100, 60)`: the scaled vectors have larger magnitude `100` in mode
`LINEAR` and `70` in mode `ODOM_HOLO_THRU`, and the divisor is not `0`. -/
theorem holoOutput_scaling_witness :
    (Mode.LINEAR ≠ Mode.ODOM_HOLO_THRU) ∧
      (holoOutput ⟨Real.pi, Real.sin, Real.cos, fun a b => Complex.arg ⟨b, a⟩⟩ Mode.LINEAR
        (Real.pi / 4) 70 100 (-100) 60).largestVector ≠ 0 ∧
      Max.max
        |(holoOutput ⟨Real.pi, Real.sin, Real.cos, fun a b => Complex.arg ⟨b, a⟩⟩ Mode.LINEAR
          (Real.pi / 4) 70 100 (-100) 60).frontVector|
        |(holoOutput ⟨Real.pi, Real.sin, Real.cos, fun a b => Complex.arg ⟨b, a⟩⟩ Mode.LINEAR
          (Real.pi / 4) 70 100 (-100) 60).backVector| = 100 ∧
      Max.max
        |(holoOutput ⟨Real.pi, Real.sin, Real.cos, fun a b => Complex.arg ⟨b, a⟩⟩
          Mode.ODOM_HOLO_THRU (Real.pi / 4) 70 100 (-100) 60).frontVector|
        |(holoOutput ⟨Real.pi, Real.sin, Real.cos, fun a b => Complex.arg ⟨b, a⟩⟩
          Mode.ODOM_HOLO_THRU (Real.pi / 4) 70 100 (-100) 60).backVector| = 70 := by
  have h1 := holoOutput_scaling ⟨Real.pi, Real.sin, Real.cos, fun a b => Complex.arg ⟨b, a⟩⟩
    ⟨rfl, rfl, rfl, fun _ _ => rfl⟩ Mode.LINEAR (Real.pi / 4) 70 100 (-100) 60
  have h2 := holoOutput_scaling ⟨Real.pi, Real.sin, Real.cos, fun a b => Complex.arg ⟨b, a⟩⟩
    ⟨rfl, rfl, rfl, fun _ _ => rfl⟩ Mode.ODOM_HOLO_THRU (Real.pi / 4) 70 100 (-100) 60
  refine ⟨by decide, h1.1, ?_, ?_⟩
  · rw [h1.2.2.1 (by decide)]
    norm_num
  · rw [h2.2.2.2 rfl]
    norm_num

end chassis

namespace odom

variable {α : Type} [LinearOrderedField α]

/-- C21. Pure rotation does not move the estimated position.  Without an IMU
(dead-reckoned heading), for every odometry tick with
`delta_left = -delta_right ≠ 0` and
`delta_middle = -middle_distance * delta_angle`, every heading and every
`left_right_distance ≠ 0`: the heading delta is `-delta_right /
left_right_distance ≠ 0`, so the arc branch is taken, it yields
`local_x = local_y = 0`, and `global_x` and `global_y` are unchanged (in the
non-holonomic configuration as in the holonomic one). -/
theorem odomTick_pure_rotation (m : Libm α) (g : α) (s : State α) (l : OdomLocals α)
    (s' : State α) (hrun : odomTick m g s = some (l, s'))
    (himu : s.hw.imu = none)
    (hlr : l.delta_left = -l.delta_right) (hr : l.delta_right ≠ 0)
    (hmid : l.delta_middle = -s.odom.middle_distance * l.delta_angle)
    (hlrd : s.odom.left_right_distance ≠ 0) :
    l.delta_angle = -l.delta_right / s.odom.left_right_distance ∧ l.delta_angle ≠ 0 ∧
      l.local_x = 0 ∧ l.local_y = 0 ∧
      s'.odom.global_x = s.odom.global_x ∧ s'.odom.global_y = s.odom.global_y := by
  obtain ⟨-, hdead, -, ⟨hy, hx, -⟩, ⟨hgy, hgx⟩, -, -, -⟩ := odomTick_spec m g s l s' hrun
  obtain ⟨hda, -, -⟩ := hdead himu
  have hda' : l.delta_angle = -l.delta_right / s.odom.left_right_distance := by
    rw [hda, hlr]
    field_simp
    ring
  have hne : l.delta_angle ≠ 0 := by
    rw [hda']
    exact div_ne_zero (neg_ne_zero.mpr hr) hlrd
  have hy0 : l.local_y = 0 := by
    rw [hy, if_pos hne]
    have : l.delta_right / l.delta_angle + s.odom.left_right_distance = 0 := by
      rw [hda', div_div_eq_mul_div, div_neg, mul_div_assoc, mul_comm,
        div_mul_cancel₀ _ hr]
      ring
    rw [this, zero_mul]
  have hx0 : l.local_x = 0 := by
    rw [hx, if_pos hne]
    have : l.delta_middle / l.delta_angle + s.odom.middle_distance = 0 := by
      rw [hmid, mul_div_assoc, div_self hne]
      ring
    rw [this, zero_mul]
  refine ⟨hda', hne, hx0, hy0, ?_, ?_⟩
  · rw [hgx, hx0, hy0]; ring
  · rw [hgy, hx0, hy0]; ring

/-- C21, checked over the reals with `left_right_distance = 5`,
`middle_distance = 3` and 40 ticks per unit: the left group advances by `200`
ticks, the right group by `-200`, the middle encoder by `-120`, so
`delta_left = 5 = -delta_right`, `delta_angle = 1`, `delta_middle = -3`; the
local displacement is `(0, 0)` and the pose stays at `(0, 0)` while the heading
goes to `1`. -/
theorem odomTick_pure_rotation_witness :
    ∃ (l : OdomLocals ℝ) (s' : State ℝ),
      odomTick ⟨Real.pi, Real.sin, Real.cos, fun a b => Complex.arg ⟨b, a⟩⟩ 0
        { (sampleState : State ℝ) with
          hw := { sampleHardware 200 (-200) with middleEncoder := some (-120) } } =
        some (l, s') ∧
      l.delta_left = 5 ∧ l.delta_right = -5 ∧ l.delta_middle = -3 ∧ l.delta_angle = 1 ∧
      l.local_x = 0 ∧ l.local_y = 0 ∧ s'.odom.global_x = 0 ∧ s'.odom.global_y = 0 ∧
      s'.odom.heading = 1 := by
  have h := odomTick_pure_rotation
    ⟨Real.pi, Real.sin, Real.cos, fun a b => Complex.arg ⟨b, a⟩⟩ 0
    { (sampleState : State ℝ) with
      hw := { sampleHardware 200 (-200) with middleEncoder := some (-120) } } _ _ rfl rfl
    (by norm_num [sampleState, sampleHardware]) (by norm_num [sampleState, sampleHardware])
    (by norm_num [sampleState, sampleHardware]) (by norm_num [sampleState])
  refine ⟨_, _, rfl, ?_, ?_, ?_, ?_, h.2.2.1, h.2.2.2.1, ?_, ?_, ?_⟩
  · norm_num [sampleState, sampleHardware]
  · norm_num [sampleState, sampleHardware]
  · norm_num [sampleState, sampleHardware]
  · norm_num [sampleState, sampleHardware]
  · rw [h.2.2.2.2.1]; simp [sampleState]
  · rw [h.2.2.2.2.2]; simp [sampleState]
  · norm_num [sampleState, sampleHardware]

end odom

namespace chassis

variable {α : Type} [LinearOrderedField α]

/-- One call of `settled` on readings whose three samples are `q`: the call
completes, stores `q` as the previous samples, keeps the mode and the
thresholds, and its `wheelMovingCount` is the sum of the three flags of
`wheelMoving` against the samples stored before. -/
theorem settled_of_samples (s : State α) (q : α × α × α) (hq : settleSamples s.hw = some q) :
    ∃ r : SettledResult α, settled s = some r ∧
      r.wheelMovingCount =
        0 + (wheelMoving s.chassis s.pid.mode q.1 s.chassis.psv_left).1 +
          (wheelMoving s.chassis s.pid.mode q.2.1 s.chassis.psv_right).1 +
          (wheelMoving s.chassis s.pid.mode q.2.2 s.chassis.psv_middle).1 ∧
      (r.state.chassis.psv_left, r.state.chassis.psv_right, r.state.chassis.psv_middle) = q ∧
      r.state.pid = s.pid ∧
      r.state.chassis.settle_threshold_linear = s.chassis.settle_threshold_linear ∧
      r.state.chassis.settle_threshold_angular = s.chassis.settle_threshold_angular := by
  unfold settleSamples at hq
  unfold settled
  simp only [position, if_true] at hq ⊢
  split at hq
  · exact absurd hq (by simp)
  · rename_i l r hlr
    simp only [Option.some.injEq] at hq
    subst hq
    simp only [hlr]
    exact ⟨_, rfl, rfl, rfl, rfl, rfl, rfl⟩

/-- A sample within the threshold of the stored one is not flagged. -/
theorem wheelMoving_of_le (c : Chassis α) (mode : Mode) (sv psv : α)
    (h : |sv - psv| ≤ (if mode = Mode.ANGULAR then c.settle_threshold_angular
      else c.settle_threshold_linear)) :
    (wheelMoving c mode sv psv).1 = 0 := by
  simp only [wheelMoving]
  rw [if_neg (not_lt.mpr h)]

/-- Over a slow stream every call of `settled` completes with
`wheelMovingCount = 0`, and the samples stored at the end are those of the last
reading. -/
theorem settledCalls_slow (hws : List (Hardware α)) (s : State α)
    (hslow : slowStream
      (if s.pid.mode = Mode.ANGULAR then s.chassis.settle_threshold_angular
        else s.chassis.settle_threshold_linear)
      (s.chassis.psv_left, s.chassis.psv_right, s.chassis.psv_middle) hws = true) :
    ∃ (rets : List Bool) (counts : List Int) (s' : State α),
      settledCalls s hws = some (rets, counts, s') ∧ (∀ c ∈ counts, c = 0) ∧
      (∀ hw, hws.getLast? = some hw →
        settleSamples hw =
          some (s'.chassis.psv_left, s'.chassis.psv_right, s'.chassis.psv_middle)) := by
  induction hws generalizing s with
  | nil => exact ⟨[], [], s, rfl, by simp, by simp⟩
  | cons hw hws ih =>
    simp only [slowStream] at hslow
    split at hslow
    · exact absurd hslow (by simp)
    · rename_i q hq
      simp only [Bool.and_eq_true, decide_eq_true_eq] at hslow
      obtain ⟨⟨⟨h1, h2⟩, h3⟩, hrest⟩ := hslow
      obtain ⟨r, hr, hcount, hpsv, hpid, hlin, hang⟩ :=
        settled_of_samples { s with hw := hw } q hq
      simp only at hcount hpid hlin hang
      have hz : r.wheelMovingCount = 0 := by
        rw [hcount, wheelMoving_of_le _ _ _ _ h1, wheelMoving_of_le _ _ _ _ h2,
          wheelMoving_of_le _ _ _ _ h3]
        norm_num
      have hrest' : slowStream
          (if r.state.pid.mode = Mode.ANGULAR then r.state.chassis.settle_threshold_angular
            else r.state.chassis.settle_threshold_linear)
          (r.state.chassis.psv_left, r.state.chassis.psv_right, r.state.chassis.psv_middle)
          hws = true := by
        rw [hpid, hlin, hang, hpsv]
        exact hrest
      obtain ⟨rets, counts, s', hrun, hall, hlast⟩ := ih r.state hrest'
      refine ⟨r.ret :: rets, r.wheelMovingCount :: counts, s', ?_, ?_, ?_⟩
      · simp only [settledCalls, hr, hrun]
      · intro c hc
        rcases List.mem_cons.mp hc with rfl | hc'
        · exact hz
        · exact hall c hc'
      · intro hw' hl
        cases hws with
        | nil =>
          simp only [List.getLast?_singleton, Option.some.injEq] at hl
          subst hl
          simp only [settledCalls, Option.some.injEq, Prod.mk.injEq] at hrun
          obtain ⟨-, -, rfl⟩ := hrun
          rw [hq, hpsv]
        | cons hw2 hws2 =>
          rw [List.getLast?_cons_cons] at hl
          exact hlast hw' hl

/-- C22. The settle detector compares each sample only with the one before it,
which `wheelMoving` has stored.  For every threshold and every `settle_time`,
over a stream of readings in which each of the three samples changes by at most
the threshold of the mode from one call to the next (the first against the
stored samples): every call of `settled` completes, none flags a channel, call
number `k + 1` returns whether `settle_count + k + 1 > settle_time`, so from a
zeroed counter `settled` returns true on call `settle_time + 1` and on every
later call, and the samples stored at the end are those of the last reading,
however far they are from the first. -/
theorem settled_slow_stream (hws : List (Hardware α)) (s : State α)
    (hslow : slowStream
      (if s.pid.mode = Mode.ANGULAR then s.chassis.settle_threshold_angular
        else s.chassis.settle_threshold_linear)
      (s.chassis.psv_left, s.chassis.psv_right, s.chassis.psv_middle) hws = true) :
    ∃ (rets : List Bool) (counts : List Int) (s' : State α),
      settledCalls s hws = some (rets, counts, s') ∧ (∀ c ∈ counts, c = 0) ∧
      rets.length = hws.length ∧
      (∀ k, k < hws.length →
        rets[k]? =
          some (decide (s.chassis.settle_time < s.chassis.settle_count + (k : Int) + 1))) ∧
      (s.chassis.settle_count = 0 → ∀ k, k < hws.length →
        s.chassis.settle_time + 1 ≤ (k : Int) + 1 → rets[k]? = some true) ∧
      (∀ hw, hws.getLast? = some hw →
        settleSamples hw =
          some (s'.chassis.psv_left, s'.chassis.psv_right, s'.chassis.psv_middle)) := by
  obtain ⟨rets, counts, s', hrun, hall, hlast⟩ := settledCalls_slow hws s hslow
  obtain ⟨hlen, hk⟩ := settledCalls_quiet hws s rets counts s' hrun hall
  refine ⟨rets, counts, s', hrun, hall, hlen, hk, ?_, hlast⟩
  intro h0 k hklt hle
  rw [hk k hklt, h0]
  simp only [Option.some.injEq, decide_eq_true_eq]
  linarith

/-- C22, checked with threshold `3` and `settle_time = 2`, from a zeroed counter
and stored samples `0`: the left group reads `3, 6, 9, 12`, a step of exactly
the threshold at every call; no call flags a channel, the third call returns
true, and the stored left sample ends at `12`, four thresholds away from the
start. -/
theorem settled_slow_stream_witness :
    slowStream
        (if (sampleState : State ℚ).pid.mode = Mode.ANGULAR then
          (sampleState : State ℚ).chassis.settle_threshold_angular
          else (sampleState : State ℚ).chassis.settle_threshold_linear)
        ((sampleState : State ℚ).chassis.psv_left, (sampleState : State ℚ).chassis.psv_right,
          (sampleState : State ℚ).chassis.psv_middle)
        [sampleHardware 3 0, sampleHardware 6 0, sampleHardware 9 0, sampleHardware 12 0] =
        true ∧
      ∃ (rets : List Bool) (counts : List Int) (s' : State ℚ),
        settledCalls (sampleState : State ℚ)
          [sampleHardware 3 0, sampleHardware 6 0, sampleHardware 9 0, sampleHardware 12 0] =
          some (rets, counts, s') ∧
        (∀ c ∈ counts, c = 0) ∧ rets[0]? = some false ∧ rets[1]? = some false ∧
        rets[2]? = some true ∧ rets[3]? = some true ∧ s'.chassis.psv_left = 12 := by
  have hslow : slowStream
      (if (sampleState : State ℚ).pid.mode = Mode.ANGULAR then
        (sampleState : State ℚ).chassis.settle_threshold_angular
        else (sampleState : State ℚ).chassis.settle_threshold_linear)
      ((sampleState : State ℚ).chassis.psv_left, (sampleState : State ℚ).chassis.psv_right,
        (sampleState : State ℚ).chassis.psv_middle)
      [sampleHardware 3 0, sampleHardware 6 0, sampleHardware 9 0, sampleHardware 12 0] =
      true := by
    simp [slowStream, settleSamples, position, sampleState, sampleHardware]
    norm_num [abs_of_nonneg]
  obtain ⟨rets, counts, s', hrun, hall, -, hk, -, hlast⟩ :=
    settled_slow_stream
      [sampleHardware 3 0, sampleHardware 6 0, sampleHardware 9 0, sampleHardware 12 0]
      (sampleState : State ℚ) hslow
  have e0 := hk 0 (by simp)
  have e1 := hk 1 (by simp)
  have e2 := hk 2 (by simp)
  have e3 := hk 3 (by simp)
  simp only [sampleState] at e0 e1 e2 e3
  have hl := hlast (sampleHardware 12 0) (by simp)
  have hp : s'.chassis.psv_left = 12 := by
    simp [settleSamples, position, sampleHardware] at hl
    exact hl.1.symm
  exact ⟨hslow, rets, counts, s', hrun, hall, by simpa using e0, by simpa using e1,
    by simpa using e2, by simpa using e3, hp⟩

end chassis

namespace chassis

variable {α : Type} [LinearOrderedField α]

/-- Slow streams reach any displacement: for `t ≥ 0` the stream whose left
sample advances by exactly `t` at every reading is slow for the threshold `t`,
whatever its length `n`, and its last left sample is `(j + n) * t`. -/
theorem slowStream_ramp (t : α) (ht : 0 ≤ t) (n j : ℕ) :
    slowStream t ((j : α) * t, 0, 0) (rampStream t j n) = true ∧
      (0 < n → ∃ hw, (rampStream t j n).getLast? = some hw ∧
        settleSamples hw = some (((j + n : ℕ) : α) * t, 0, 0)) := by
  induction n generalizing j with
  | zero => exact ⟨rfl, fun h => absurd h (lt_irrefl 0)⟩
  | succ n ih =>
    obtain ⟨ih1, ih2⟩ := ih (j + 1)
    have hs : settleSamples (sampleHardware (((j + 1 : ℕ) : α) * t) 0) =
        some (((j + 1 : ℕ) : α) * t, 0, 0) := by
      simp [settleSamples, position, sampleHardware]
    have hd : |((j + 1 : ℕ) : α) * t - (j : α) * t| ≤ t := by
      have : ((j + 1 : ℕ) : α) * t - (j : α) * t = t := by push_cast; ring
      rw [this, abs_of_nonneg ht]
    constructor
    · simp only [rampStream, slowStream, hs, hd, sub_self, abs_zero, ht, decide_True,
        Bool.true_and]
      exact ih1
    · intro _
      cases n with
      | zero => exact ⟨_, rfl, by simpa using hs⟩
      | succ n =>
        obtain ⟨hw, hl, hsamp⟩ := ih2 (Nat.succ_pos n)
        refine ⟨hw, ?_, ?_⟩
        · simp only [rampStream] at hl ⊢
          rw [List.getLast?_cons_cons]
          exact hl
        · rw [hsamp]
          congr 2
          push_cast
          ring

end chassis

namespace chassis

variable {α : Type} [LinearOrderedField α]

/-- A call of `settled` on readings whose samples are `q`, one of which differs
from the stored sample by more than the threshold of the mode: the call
completes, flags a channel, zeroes the counter and returns whether
`0 > settle_time`; it stores `q` and keeps the mode, the thresholds and
`settle_time`. -/
theorem settled_flagged (s : State α) (q : α × α × α) (hq : settleSamples s.hw = some q)
    (hmov :
      (if s.pid.mode = Mode.ANGULAR then s.chassis.settle_threshold_angular
          else s.chassis.settle_threshold_linear) < |q.1 - s.chassis.psv_left| ∨
        (if s.pid.mode = Mode.ANGULAR then s.chassis.settle_threshold_angular
          else s.chassis.settle_threshold_linear) < |q.2.1 - s.chassis.psv_right| ∨
        (if s.pid.mode = Mode.ANGULAR then s.chassis.settle_threshold_angular
          else s.chassis.settle_threshold_linear) < |q.2.2 - s.chassis.psv_middle|) :
    ∃ r : SettledResult α, settled s = some r ∧ r.wheelMovingCount ≠ 0 ∧
      r.state.chassis.settle_count = 0 ∧ r.ret = decide (0 > s.chassis.settle_time) ∧
      (r.state.chassis.psv_left, r.state.chassis.psv_right, r.state.chassis.psv_middle) = q ∧
      r.state.pid = s.pid ∧
      r.state.chassis.settle_threshold_linear = s.chassis.settle_threshold_linear ∧
      r.state.chassis.settle_threshold_angular = s.chassis.settle_threshold_angular ∧
      r.state.chassis.settle_time = s.chassis.settle_time := by
  obtain ⟨r, hr, hcount, hpsv, hpid, hlin, hang⟩ := settled_of_samples s q hq
  obtain ⟨ht, hc, hret⟩ := settled_spec s r hr
  have hne : r.wheelMovingCount ≠ 0 := by
    rw [hcount]
    simp only [wheelMoving]
    rcases hmov with h | h | h
    · rw [if_pos h]; split_ifs <;> norm_num
    · rw [if_pos h]; split_ifs <;> norm_num
    · rw [if_pos h]; split_ifs <;> norm_num
  rw [if_neg hne] at hc
  refine ⟨r, hr, hne, hc, ?_, hpsv, hpid, hlin, hang, ht⟩
  rw [hret, hc]

/-- With a threshold `t ≥ 0`, a stream of readings whose samples stay equal to
the stored samples `q` is slow. -/
theorem slowStream_const (t : α) (ht : 0 ≤ t) (q : α × α × α) (hws : List (Hardware α))
    (h : ∀ hw ∈ hws, settleSamples hw = some q) : slowStream t q hws = true := by
  induction hws with
  | nil => rfl
  | cons hw hws ih =>
    have hq := h hw (List.mem_cons_self _ _)
    simp only [slowStream, hq, sub_self, abs_zero, ht, decide_True, Bool.true_and]
    exact ih (fun x hx => h x (List.mem_cons_of_mem _ hx))

/-- With a negative threshold of the mode and `settle_time ≥ 0`, every call of
`settled` that completes flags its channels, whatever the readings, and returns
false. -/
theorem settledCalls_negative_threshold (hws : List (Hardware α)) (s : State α)
    (hneg : (if s.pid.mode = Mode.ANGULAR then s.chassis.settle_threshold_angular
      else s.chassis.settle_threshold_linear) < 0)
    (hst : 0 ≤ s.chassis.settle_time)
    (hsome : ∀ hw ∈ hws, ∃ q, settleSamples hw = some q) :
    ∃ (rets : List Bool) (counts : List Int) (s' : State α),
      settledCalls s hws = some (rets, counts, s') ∧ rets.length = hws.length ∧
      (∀ b ∈ rets, b = false) ∧ (∀ c ∈ counts, c ≠ 0) := by
  induction hws generalizing s with
  | nil => exact ⟨[], [], s, rfl, rfl, by simp, by simp⟩
  | cons hw hws ih =>
    obtain ⟨q, hq⟩ := hsome hw (List.mem_cons_self _ _)
    obtain ⟨r, hr, hne, -, hret, -, hpid, hlin, hang, htime⟩ :=
      settled_flagged { s with hw := hw } q hq
        (Or.inl (lt_of_lt_of_le hneg (abs_nonneg _)))
    simp only at hret hpid hlin hang htime
    have hneg' : (if r.state.pid.mode = Mode.ANGULAR then
        r.state.chassis.settle_threshold_angular
        else r.state.chassis.settle_threshold_linear) < 0 := by
      rw [hpid, hlin, hang]
      exact hneg
    obtain ⟨rets, counts, s', hrun, hlen, hall, hcnt⟩ :=
      ih r.state hneg' (htime ▸ hst) (fun x hx => hsome x (List.mem_cons_of_mem _ hx))
    refine ⟨r.ret :: rets, r.wheelMovingCount :: counts, s', ?_, by simp [hlen], ?_, ?_⟩
    · simp only [settledCalls, hr, hrun]
    · intro b hb
      rcases List.mem_cons.mp hb with rfl | hb'
      · rw [hret]
        simpa using hst
      · exact hall b hb'
    · intro c hc
      rcases List.mem_cons.mp hc with rfl | hc'
      · exact hne
      · exact hcnt c hc'

/-- C4, as stated, fails when the threshold is negative: with
`settle_threshold_linear = -1` and `settle_time = 2`, a call that sees the left
group jump from `0` to `10` is flagged, and the four calls after it see the
same readings (no channel moves), yet each of them is flagged again
(`|10 - 10| = 0 > -1`) and returns false, the third included. -/
theorem settled_constant_stream_not_settled :
    ∃ r0 : SettledResult ℚ,
      settled { (sampleState : State ℚ) with
        hw := sampleHardware 10 0,
        chassis := { (sampleState : State ℚ).chassis with settle_threshold_linear := -1 } } =
        some r0 ∧
      r0.wheelMovingCount ≠ 0 ∧ r0.state.chassis.settle_count = 0 ∧
      r0.state.chassis.settle_time = 2 ∧
      ∃ (rets : List Bool) (counts : List Int) (s' : State ℚ),
        settledCalls r0.state
          [sampleHardware 10 0, sampleHardware 10 0, sampleHardware 10 0,
            sampleHardware 10 0] = some (rets, counts, s') ∧
        rets.length = 4 ∧ (∀ b ∈ rets, b = false) ∧ (∀ c ∈ counts, c ≠ 0) ∧
        rets[2]? = some false := by
  have hq : settleSamples (sampleHardware (10 : ℚ) 0) = some (10, 0, 0) := by
    simp [settleSamples, position, sampleHardware]
  obtain ⟨r0, hr0, hne, hc, -, -, hpid, hlin, hang, htime⟩ :=
    settled_flagged
      { (sampleState : State ℚ) with
        hw := sampleHardware 10 0,
        chassis := { (sampleState : State ℚ).chassis with settle_threshold_linear := -1 } }
      (10, 0, 0) hq (Or.inl (by simp [sampleState]; norm_num))
  simp only at hpid hlin hang htime
  have hneg : (if r0.state.pid.mode = Mode.ANGULAR then
      r0.state.chassis.settle_threshold_angular
      else r0.state.chassis.settle_threshold_linear) < 0 := by
    rw [hpid, hlin, hang]
    simp [sampleState]
  have htime2 : r0.state.chassis.settle_time = 2 := by rw [htime]; rfl
  obtain ⟨rets, counts, s', hrun, hlen, hall, hcnt⟩ :=
    settledCalls_negative_threshold
      [sampleHardware 10 0, sampleHardware 10 0, sampleHardware 10 0, sampleHardware 10 0]
      r0.state hneg (by rw [htime2]; norm_num)
      (fun hw hhw => ⟨(10, 0, 0), by
        simp only [List.mem_cons, List.mem_singleton, List.not_mem_nil, or_false,
          or_self] at hhw
        rw [hhw]; exact hq⟩)
  have hlen4 : rets.length = 4 := by simpa using hlen
  refine ⟨r0, hr0, hne, hc, htime2, rets, counts, s', hrun, hlen4, hall, hcnt, ?_⟩
  have h2 : 2 < rets.length := by omega
  rw [List.getElem?_eq_getElem h2]
  exact congrArg some (hall _ (List.getElem_mem h2))

/-- C4 (amended). Settle debounce timing.  Take a call of `settled` in which the
sample of some channel differs from the stored one by more than the threshold
of the mode: the call completes, is flagged, leaves `settle_count = 0` and, for
`settle_time ≥ 0`, returns false.  If at every later call each of the three
samples differs from the sample of the call before by at most the threshold,
as a constant-position stream does when the threshold is `≥ 0`, then every
later call completes without a flag and later call number `k + 1` returns true
exactly when `k + 1 > settle_time`: false on the next `settle_time` calls, true
on call `settle_time + 1` and on every call after it, never earlier. -/
theorem settled_debounce (s0 : State α) (hw0 : Hardware α) (q0 : α × α × α)
    (hq0 : settleSamples hw0 = some q0)
    (hmov :
      (if s0.pid.mode = Mode.ANGULAR then s0.chassis.settle_threshold_angular
          else s0.chassis.settle_threshold_linear) < |q0.1 - s0.chassis.psv_left| ∨
        (if s0.pid.mode = Mode.ANGULAR then s0.chassis.settle_threshold_angular
          else s0.chassis.settle_threshold_linear) < |q0.2.1 - s0.chassis.psv_right| ∨
        (if s0.pid.mode = Mode.ANGULAR then s0.chassis.settle_threshold_angular
          else s0.chassis.settle_threshold_linear) < |q0.2.2 - s0.chassis.psv_middle|) :
    ∃ r0 : SettledResult α, settled { s0 with hw := hw0 } = some r0 ∧
      r0.wheelMovingCount ≠ 0 ∧ r0.state.chassis.settle_count = 0 ∧
      (0 ≤ s0.chassis.settle_time → r0.ret = false) ∧
      ∀ hws : List (Hardware α),
        (slowStream
            (if s0.pid.mode = Mode.ANGULAR then s0.chassis.settle_threshold_angular
              else s0.chassis.settle_threshold_linear) q0 hws = true ∨
          (0 ≤ (if s0.pid.mode = Mode.ANGULAR then s0.chassis.settle_threshold_angular
              else s0.chassis.settle_threshold_linear) ∧
            ∀ hw ∈ hws, settleSamples hw = some q0)) →
        ∃ (rets : List Bool) (counts : List Int) (s' : State α),
          settledCalls r0.state hws = some (rets, counts, s') ∧ (∀ c ∈ counts, c = 0) ∧
          rets.length = hws.length ∧
          (∀ k, k < hws.length →
            rets[k]? = some (decide (s0.chassis.settle_time < (k : Int) + 1))) ∧
          (∀ k, k < hws.length → (k : Int) + 1 ≤ s0.chassis.settle_time →
            rets[k]? = some false) ∧
          (∀ k, k < hws.length → s0.chassis.settle_time + 1 ≤ (k : Int) + 1 →
            rets[k]? = some true) := by
  obtain ⟨r0, hr0, hne, hc, hret, hpsv, hpid, hlin, hang, htime⟩ :=
    settled_flagged { s0 with hw := hw0 } q0 hq0 hmov
  simp only at hret hpid hlin hang htime
  refine ⟨r0, hr0, hne, hc, ?_, ?_⟩
  · intro hst
    rw [hret]
    simpa using hst
  · intro hws hstream
    have hslow : slowStream
        (if s0.pid.mode = Mode.ANGULAR then s0.chassis.settle_threshold_angular
          else s0.chassis.settle_threshold_linear) q0 hws = true := by
      rcases hstream with h | ⟨h0, hconst⟩
      · exact h
      · exact slowStream_const _ h0 q0 hws hconst
    have hslow' : slowStream
        (if r0.state.pid.mode = Mode.ANGULAR then r0.state.chassis.settle_threshold_angular
          else r0.state.chassis.settle_threshold_linear)
        (r0.state.chassis.psv_left, r0.state.chassis.psv_right, r0.state.chassis.psv_middle)
        hws = true := by
      rw [hpid, hlin, hang, hpsv]
      exact hslow
    obtain ⟨rets, counts, s', hrun, hall, -⟩ := settledCalls_slow hws r0.state hslow'
    obtain ⟨hlen, hk⟩ := settledCalls_quiet hws r0.state rets counts s' hrun hall
    have hk' : ∀ k, k < hws.length →
        rets[k]? = some (decide (s0.chassis.settle_time < (k : Int) + 1)) := by
      intro k hklt
      have := hk k hklt
      rw [htime, hc, zero_add] at this
      exact this
    refine ⟨rets, counts, s', hrun, hall, hlen, hk', ?_, ?_⟩
    · intro k hklt hle
      rw [hk' k hklt]
      simp only [Option.some.injEq, decide_eq_false_iff_not, not_lt]
      exact hle
    · intro k hklt hle
      rw [hk' k hklt]
      simp only [Option.some.injEq, decide_eq_true_eq]
      linarith

/-- C4 (amended), checked with threshold `3` and `settle_time = 2`: a call that
sees the left group jump from `0` to `10` is flagged and returns false; the
next four calls see the same readings, none is flagged, and they return false,
false, true, true. -/
theorem settled_debounce_witness :
    settleSamples (sampleHardware (10 : ℚ) 0) = some (10, 0, 0) ∧
      (3 : ℚ) < |(10 : ℚ) - 0| ∧
      ∃ r0 : SettledResult ℚ,
        settled { (sampleState : State ℚ) with hw := sampleHardware 10 0 } = some r0 ∧
        r0.wheelMovingCount ≠ 0 ∧ r0.state.chassis.settle_count = 0 ∧ r0.ret = false ∧
        ∃ (rets : List Bool) (counts : List Int) (s' : State ℚ),
          settledCalls r0.state
            [sampleHardware 10 0, sampleHardware 10 0, sampleHardware 10 0,
              sampleHardware 10 0] = some (rets, counts, s') ∧
          (∀ c ∈ counts, c = 0) ∧ rets.length = 4 ∧
          rets[0]? = some false ∧ rets[1]? = some false ∧ rets[2]? = some true ∧
          rets[3]? = some true := by
  have hq : settleSamples (sampleHardware (10 : ℚ) 0) = some (10, 0, 0) := by
    simp [settleSamples, position, sampleHardware]
  have hmov : (3 : ℚ) < |(10 : ℚ) - 0| := by norm_num
  obtain ⟨r0, hr0, hne, hc, hret, hrest⟩ :=
    settled_debounce (sampleState : State ℚ) (sampleHardware 10 0) (10, 0, 0) hq
      (Or.inl (by simpa [sampleState] using hmov))
  obtain ⟨rets, counts, s', hrun, hall, hlen, hk, -, -⟩ :=
    hrest [sampleHardware 10 0, sampleHardware 10 0, sampleHardware 10 0, sampleHardware 10 0]
      (Or.inr ⟨by simp [sampleState], fun hw hhw => by
        simp only [List.mem_cons, List.mem_singleton, List.not_mem_nil, or_false,
          or_self] at hhw
        rw [hhw]; exact hq⟩)
  have e0 := hk 0 (by simp)
  have e1 := hk 1 (by simp)
  have e2 := hk 2 (by simp)
  have e3 := hk 3 (by simp)
  simp only [sampleState] at e0 e1 e2 e3
  exact ⟨hq, hmov, r0, hr0, hne, hc, hret (by norm_num [sampleState]), rets, counts, s', hrun,
    hall, by simpa using hlen, by simpa using e0, by simpa using e1, by simpa using e2,
    by simpa using e3⟩

end chassis

end ARMS
